import Mathlib

/-!
Shallow embedding of the FlameR tensor engine, covering:

* the IEEE-754 binary32 value model used by all backends (`F32`);
* the host backend buffer table and its operations
  (`src/src/backends/cpu_backend.rs`);
* the GPU backend buffer table bookkeeping and the element-wise contract of
  the divide kernel (`src/src/backends/vulkan_backend.rs`, `src/src/vulkan.rs`);
* the lazy-buffer registry, its four constructors, dependency collection,
  topological sorting, and realization (`src/src/lazybuffer.rs`);
* the autograd traversal of `src/src/tensor.rs`.

Float values are modelled as an inductive of finite rationals, signed
infinities, and NaN.  Finite arithmetic is exact rational arithmetic (binary32
rounding is abstracted away) and the two IEEE zeroes are conflated; the special
values (NaN production and propagation, signed infinities, division by zero)
follow IEEE-754, which `f32` arithmetic in Rust and the GLSL kernels implement.
None of the verified claims depends on rounding or on the sign of zero.

Rust `HashMap`s are modelled as association lists with replace-on-insert;
where the original iterates over a `HashMap` in unspecified order, the
corresponding function here is stated over an arbitrary association-list
order, so theorems quantifying over those lists cover every iteration order.
Calls that can `panic!` (or index out of bounds / `unwrap` a missing entry)
are modelled in `Option`, with `none` standing for the abort.
-/

/-- IEEE-754 binary32 values: finite values are carried as exact rationals
(rounding abstracted, the two zeroes conflated), plus the two infinities and
NaN (all NaN payloads conflated). -/
inductive F32 where
  | finite (q : ℚ)
  | inf (neg : Bool)
  | nan
deriving DecidableEq

/-- IEEE negation (sign flip; on the conflated zero it is the identity). -/
def F32.neg : F32 → F32
  | .finite q => .finite (-q)
  | .inf b => .inf (!b)
  | .nan => .nan

/-- IEEE addition: NaN propagates, opposite infinities give NaN. -/
def F32.add : F32 → F32 → F32
  | .nan, _ => .nan
  | _, .nan => .nan
  | .inf a, .inf b => if a = b then .inf a else .nan
  | .inf a, .finite _ => .inf a
  | .finite _, .inf b => .inf b
  | .finite a, .finite b => .finite (a + b)

/-- IEEE subtraction: NaN propagates, equal-signed infinities give NaN. -/
def F32.sub : F32 → F32 → F32
  | .nan, _ => .nan
  | _, .nan => .nan
  | .inf a, .inf b => if a = b then .nan else .inf a
  | .inf a, .finite _ => .inf a
  | .finite _, .inf b => .inf (!b)
  | .finite a, .finite b => .finite (a - b)

/-- IEEE multiplication: NaN propagates, `0 × ∞` is NaN, signs multiply. -/
def F32.mul : F32 → F32 → F32
  | .nan, _ => .nan
  | _, .nan => .nan
  | .inf a, .inf b => .inf (a ^^ b)
  | .inf a, .finite q => if q = 0 then .nan else .inf (a ^^ decide (q < 0))
  | .finite q, .inf b => if q = 0 then .nan else .inf (b ^^ decide (q < 0))
  | .finite a, .finite b => .finite (a * b)

/-- IEEE division: NaN propagates, `∞/∞` is NaN, `finite/∞` is zero,
`x/0` is NaN when `x` is zero and a signed infinity otherwise. -/
def F32.div : F32 → F32 → F32
  | .nan, _ => .nan
  | _, .nan => .nan
  | .inf _, .inf _ => .nan
  | .inf a, .finite q => .inf (a ^^ decide (q < 0))
  | .finite _, .inf _ => .finite 0
  | .finite a, .finite b =>
      if b = 0 then (if a = 0 then .nan else .inf (decide (a < 0)))
      else .finite (a / b)

/-- A buffer of float values (a `Vec<f32>` / device buffer contents). -/
abbrev Buf := List F32

/-- Association-list lookup, modelling `HashMap::get`. -/
def alistLookup {α β : Type} [DecidableEq α] (k : α) : List (α × β) → Option β
  | [] => none
  | (k₂, v) :: rest => if k = k₂ then some v else alistLookup k rest

/-- Association-list insert with replacement, modelling `HashMap::insert`. -/
def alistInsert {α β : Type} [DecidableEq α] (k : α) (v : β) :
    List (α × β) → List (α × β)
  | [] => [(k, v)]
  | (k₂, v₂) :: rest =>
      if k = k₂ then (k, v) :: rest else (k₂, v₂) :: alistInsert k v rest

/-- `BufferHandle` from `src/src/lazybuffer.rs`: a lazy-buffer identity paired
with an element count. -/
structure BufferHandle where
  id : Nat
  size : Nat
deriving DecidableEq

/-- Host backend state: the `id → Vec<f32>` table behind the mutex in
`CPUBackend` (`src/src/backends/cpu_backend.rs`). -/
structure CPUState where
  buffers : List (Nat × Buf)
deriving DecidableEq

namespace CPUBackend

/-- `CPUBackend::allocate_buffer`: return the existing buffer's handle if the
identity is present (with the stored length as size), otherwise insert a
zero-filled vector of the requested size. -/
def allocate_buffer (s : CPUState) (lazy : Nat) (size : Nat) :
    BufferHandle × CPUState :=
  match alistLookup lazy s.buffers with
  | some buf => (⟨lazy, buf.length⟩, s)
  | none =>
      (⟨lazy, size⟩, ⟨alistInsert lazy (List.replicate size (F32.finite 0)) s.buffers⟩)

/-- `CPUBackend::to_device`: both branches of the source leave exactly `data`
stored at the handle's identity (clear-and-extend when present, fresh insert
otherwise). -/
def to_device (s : CPUState) (data : Buf) (h : BufferHandle) : CPUState :=
  ⟨alistInsert h.id data s.buffers⟩

/-- `CPUBackend::read_buffer`: clone the stored vector, panicking (`none`)
when the identity is absent. -/
def read_buffer (s : CPUState) (h : BufferHandle) : Option Buf :=
  alistLookup h.id s.buffers

/-- The four element-wise binary operations of the backend contract. -/
inductive BinOpKind where
  | add
  | subtract
  | multiply
  | divide
deriving DecidableEq

/-- Scalar semantics of each binary operation. -/
def BinOpKind.f : BinOpKind → F32 → F32 → F32
  | .add => F32.add
  | .subtract => F32.sub
  | .multiply => F32.mul
  | .divide => F32.div

/-- The `for i in 0..size` loop body shared by the four host ops: it reads
`a_data[i]` and `b_data[i]` for every `i < size` (indexing out of range
panics, modelled as `none`) and collects the results into a fresh vector. -/
def opLoop (f : F32 → F32 → F32) (a b : Buf) (size : Nat) : Option Buf :=
  if size ≤ a.length ∧ size ≤ b.length then
    some ((List.range size).map fun i => f (a.getD i .nan) (b.getD i .nan))
  else none

/-- `CPUBackend::{add,subtract,multiply,divide}`: look the operands up, run
the element loop into a fresh vector, and insert it at the result identity.
The source has no zero-divisor guard: `divide` pushes `a_data[i] / b_data[i]`
directly. -/
def binOp (k : BinOpKind) (s : CPUState) (a b result : BufferHandle)
    (size : Nat) : Option CPUState := do
  let ad ← alistLookup a.id s.buffers
  let bd ← alistLookup b.id s.buffers
  let rd ← opLoop k.f ad bd size
  some ⟨alistInsert result.id rd s.buffers⟩

/-- `CPUBackend::divide` specialised from `binOp` (the `size` argument and
table handling are identical across the four ops). -/
def divide (s : CPUState) (a b result : BufferHandle) (size : Nat) :
    Option CPUState :=
  binOp .divide s a b result size

/-- `CPUBackend::memset`: clone the source vector over the destination slot.
`clone_from_slice` panics unless the two lengths agree; the `size` argument is
ignored by the source. -/
def memset (s : CPUState) (a b : BufferHandle) (_size : Nat) :
    Option CPUState := do
  let bd ← alistLookup b.id s.buffers
  let ad ← alistLookup a.id s.buffers
  if ad.length = bd.length then some ⟨alistInsert a.id bd s.buffers⟩ else none

end CPUBackend

/-- GPU backend buffer table: `VulkanBackend.buffers` maps a lazy-buffer
identity to a device buffer, of which only the recorded byte size matters for
the bookkeeping (`Buffer.size : u64` in `src/src/vulkan.rs` is in bytes;
`allocate_buffer` creates the buffer with `size * size_of::<f32>()`). -/
structure VkState where
  buffers : List (Nat × Nat)
deriving DecidableEq

namespace VulkanBackend

/-- `VulkanBackend::allocate_buffer`: on a cache hit the returned handle's
size is `buffer.size as usize`, i.e. the stored **byte** size; on a miss a
device buffer of `size * 4` bytes is created and the handle carries the
requested element count. -/
def allocate_buffer (s : VkState) (lazy : Nat) (size : Nat) :
    BufferHandle × VkState :=
  match alistLookup lazy s.buffers with
  | some bytes => (⟨lazy, bytes⟩, s)
  | none => (⟨lazy, size⟩, ⟨alistInsert lazy (size * 4) s.buffers⟩)

/-- Element-wise contract of the `divide` compute kernel compiled by
`VulkanBackend::compile_shader_for_operation`: every invocation `idx < size`
writes `tensorA.data[idx] / tensorB.data[idx]` (plain GLSL float division, no
zero-divisor branch); out-of-range invocations write nothing. -/
def shader_divide (a b : Buf) (size : Nat) : Buf :=
  (List.range size).map fun i => F32.div (a.getD i .nan) (b.getD i .nan)

end VulkanBackend

/-! ## The lazy-buffer registry (`src/src/lazybuffer.rs`) -/

/-- `CreationType`. -/
inductive CreationType where
  | random
  | rawData (data : List F32)
  | created
deriving DecidableEq

/-- `LazyOp`; operand handles are lazy-buffer identities. -/
inductive LazyOp where
  | creation (c : CreationType)
  | clear (a : Nat)
  | add (a b : Nat)
  | subtract (a b : Nat)
  | multiply (a b : Nat)
  | divide (a b : Nat)
  | memset (a b : Nat)
deriving DecidableEq

/-- `LazybufferType`: scratch nodes versus tensor-owned nodes. -/
inductive LazybufferType where
  | scratch
  | tensorData (t : Nat)
deriving DecidableEq

/-- A registry node (`LazyBuffer`). -/
structure LazyBuffer where
  id : Nat
  kind : LazybufferType
  size : Nat
  operation : LazyOp
  deviceBuffer : Option BufferHandle
deriving DecidableEq

/-- The thread-local registry state: the append-only node vector
(`LAZYBUFFER_REGISTRY`), the id counter (`NEXT_BUFFER_ID`), and the three
caches.  `DefaultHasher` hashes are modelled by their (injective) pre-images:
the scratch-data cache is keyed by the exact float sequence and the scratch-op
cache by the commutative-normalised operation produced by `opHashKey`; a hash
collision in the original could only make a cache return a different existing
handle, which none of the verified claims depends on. -/
structure RegState where
  registry : List LazyBuffer
  nextId : Nat
  scratchCache : List (List F32 × Nat)
  scratchOpCache : List (LazyOp × Nat)
  tensorToBuffers : List (Nat × List Nat)
deriving DecidableEq

/-- The initial (process-start) registry state. -/
def RegState.init : RegState := ⟨[], 0, [], [], []⟩

/-- `get_next_buffer_id`: return the counter and post-increment it. -/
def get_next_buffer_id (s : RegState) : Nat × RegState :=
  (s.nextId, { s with nextId := s.nextId + 1 })

/-- `calculate_op_hash`, modelled by its pre-image: creation ops are not
cached (`none`); `Add`/`Multiply` sort their operand pair so that `(a,b)` and
`(b,a)` collide deliberately; the other variants are order-sensitive. -/
def opHashKey : LazyOp → Option LazyOp
  | .creation _ => none
  | .clear a => some (.clear a)
  | .add a b => some (.add (min a b) (max a b))
  | .multiply a b => some (.multiply (min a b) (max a b))
  | .subtract a b => some (.subtract a b)
  | .divide a b => some (.divide a b)
  | .memset a b => some (.memset a b)

namespace LazyBuffer

/-- `LazyBuffer::new`: register a tensor-owned `Creation(RawData)` node with a
fresh identity. -/
def new (tensorId : Nat) (data : List F32) (s : RegState) : Nat × RegState :=
  let size := data.length
  let (id, s₁) := get_next_buffer_id s
  (id, { s₁ with registry := s₁.registry ++
          [⟨id, .tensorData tensorId, size, .creation (.rawData data), none⟩] })

/-- `LazyBuffer::scratch`: value-keyed deduplication; register a scratch
`Creation(RawData)` node and record it in the scratch-data cache on a miss. -/
def scratch (data : List F32) (s : RegState) : Nat × RegState :=
  match alistLookup data s.scratchCache with
  | some h => (h, s)
  | none =>
      let size := data.length
      let (id, s₁) := get_next_buffer_id s
      (id, { s₁ with
        registry := s₁.registry ++ [⟨id, .scratch, size, .creation (.rawData data), none⟩],
        scratchCache := alistInsert data id s₁.scratchCache })

/-- The memo scan at the head of `from_tensor_op`: walk the owning tensor's
prior buffers in order; a registry lookup failure is the `Invalid cache`
panic (`none`); a prior node with the same binary variant and identical
operand handles is a hit (`some (some h)`); otherwise no hit (`some none`).
`memoHit` is the per-node comparison: the source matches
`(buffer.operation, op)` against same-variant pairs of the four binary ops
and compares the operand handles for equality. -/
def memoHit : LazyOp → LazyOp → Bool
  | .add a₁ b₁, .add a₂ b₂ => decide (a₁ = a₂ ∧ b₁ = b₂)
  | .subtract a₁ b₁, .subtract a₂ b₂ => decide (a₁ = a₂ ∧ b₁ = b₂)
  | .multiply a₁ b₁, .multiply a₂ b₂ => decide (a₁ = a₂ ∧ b₁ = b₂)
  | .divide a₁ b₁, .divide a₂ b₂ => decide (a₁ = a₂ ∧ b₁ = b₂)
  | _, _ => false

def findMemo (s : RegState) (op : LazyOp) : List Nat → Option (Option Nat)
  | [] => some none
  | h :: rest =>
      match s.registry[h]? with
      | none => none
      | some buffer =>
          if memoHit buffer.operation op then some (some h) else findMemo s op rest

/-- Operand pair of the variants `from_tensor_op` derives a size for
(`Add`/`Subtract`/`Multiply`/`Divide`/`Memset`); the remaining variants hit
the `Unsupported operation for size calculation` panic. -/
def sizeOperands : LazyOp → Option (Nat × Nat)
  | .add a b => some (a, b)
  | .subtract a b => some (a, b)
  | .multiply a b => some (a, b)
  | .divide a b => some (a, b)
  | .memset a b => some (a, b)
  | _ => none

/-- `entry(tensor_id).and_modify(push id).or_insert(vec![id])` on the
`TENSOR_TO_BUFFERS` cache. -/
def ttbPush (t id : Nat) (m : List (Nat × List Nat)) : List (Nat × List Nat) :=
  match alistLookup t m with
  | some l => alistInsert t (l ++ [id]) m
  | none => alistInsert t [id] m

/-- The body of `from_tensor_op` after a memo miss: derive the size (operand
registry lookups `unwrap`, mismatching sizes panic); `Memset` overwrites the
destination's registry slot reusing its identity (the slot assignment panics
when the index is out of range); any other binary op appends a fresh
tensor-owned node and records it in `TENSOR_TO_BUFFERS`. -/
def fromTensorOpFresh (tensorId : Nat) (op : LazyOp) (s : RegState) :
    Option (Nat × RegState) := do
  let (a, b) ← sizeOperands op
  let ba ← s.registry[a]?
  let bb ← s.registry[b]?
  if ba.size ≠ bb.size then none
  else
    match op with
    | .memset _ _ =>
        if a < s.registry.length then
          some (a,
            { s with registry := s.registry.set a ⟨a, .tensorData tensorId, ba.size, op, none⟩ })
        else none
    | _ =>
        let (id, s₁) := get_next_buffer_id s
        some (id, { s₁ with
          registry := s₁.registry ++ [⟨id, .tensorData tensorId, ba.size, op, none⟩],
          tensorToBuffers := ttbPush tensorId id s₁.tensorToBuffers })

/-- `LazyBuffer::from_tensor_op`: consult the owning tensor's prior buffers
for a structural hit first, then fall through to `fromTensorOpFresh`. -/
def from_tensor_op (tensorId : Nat) (op : LazyOp) (s : RegState) :
    Option (Nat × RegState) :=
  match alistLookup tensorId s.tensorToBuffers with
  | some handles =>
      match findMemo s op handles with
      | none => none
      | some (some h) => some (h, s)
      | some none => fromTensorOpFresh tensorId op s
  | none => fromTensorOpFresh tensorId op s

/-- The size derivation of `scratch_op`: `Creation(RawData)` from the inlined
data, `Clear` from its operand (`unwrap`), the four binary ops with a
size-match check; anything else hits the `Unsupported operation` panic. -/
def scratchOpSize (op : LazyOp) (s : RegState) : Option Nat :=
  match op with
  | .creation (.rawData data) => some data.length
  | .clear a => (s.registry[a]?).map (·.size)
  | .add a b | .subtract a b | .multiply a b | .divide a b => do
      let ba ← s.registry[a]?
      let bb ← s.registry[b]?
      if ba.size ≠ bb.size then none else some ba.size
  | _ => none

/-- `LazyBuffer::scratch_op` after a cache miss: derive the size, append a
fresh scratch node, and record it in the scratch-op cache when the op is
hashable. -/
def scratchOpFresh (op : LazyOp) (s : RegState) : Option (Nat × RegState) := do
  let size ← scratchOpSize op s
  let (id, s₁) := get_next_buffer_id s
  let s₂ := { s₁ with registry := s₁.registry ++ [⟨id, .scratch, size, op, none⟩] }
  some (id, match opHashKey op with
    | some key => { s₂ with scratchOpCache := alistInsert key id s₂.scratchOpCache }
    | none => s₂)

/-- `LazyBuffer::scratch_op`: return the cached handle for the op's
(normalised) key when present, else register fresh. -/
def scratch_op (op : LazyOp) (s : RegState) : Option (Nat × RegState) :=
  match opHashKey op with
  | some key =>
      match alistLookup key s.scratchOpCache with
      | some h => some (h, s)
      | none => scratchOpFresh op s
  | none => scratchOpFresh op s

end LazyBuffer

/-- One call to a registry constructor. -/
inductive RegCall where
  | newBuf (tensorId : Nat) (data : List F32)
  | scratch (data : List F32)
  | fromOp (tensorId : Nat) (op : LazyOp)
  | scratchOp (op : LazyOp)

/-- Run one constructor call. -/
def RegCall.run : RegCall → RegState → Option (Nat × RegState)
  | .newBuf t data, s => some (LazyBuffer.new t data s)
  | .scratch data, s => some (LazyBuffer.scratch data s)
  | .fromOp t op, s => LazyBuffer.from_tensor_op t op s
  | .scratchOp op, s => LazyBuffer.scratch_op op s

/-- Run a sequence of constructor calls (a panic aborts the process). -/
def runCalls : List RegCall → RegState → Option RegState
  | [], s => some s
  | c :: rest, s => do
      let (_, s₁) ← c.run s
      runCalls rest s₁

/-! ## Scheduler: dependency collection, topological sort, realization -/

/-- A dependency map as built by `collect_dependencies`: lazy-buffer identity
to node.  The list order stands in for the `HashMap`'s unspecified iteration
order; theorems quantifying over such lists cover every possible order. -/
abbrev DepsMap := List (Nat × LazyBuffer)

/-- `collect_recursive` inside `LazyBuffer::collect_dependencies`: mark the
current identity visited, look the node up in the registry (`unwrap`), recurse
into both operands of the five two-operand variants, and record the node.
The recursion is fuelled; `collectDependencies` supplies fuel exceeding the
maximal recursion depth of the original (which is bounded by the number of
distinct registered nodes). -/
def collectRec (reg : List LazyBuffer) :
    Nat → Nat → DepsMap → List Nat → Option (DepsMap × List Nat)
  | 0, _, _, _ => none
  | fuel + 1, cur, deps, visited =>
      if cur ∈ visited then some (deps, visited)
      else
        let visited₁ := cur :: visited
        match reg[cur]? with
        | none => none
        | some node =>
            match node.operation with
            | .creation _ => some (alistInsert cur node deps, visited₁)
            | .clear _ => some (alistInsert cur node deps, visited₁)
            | .add a b | .subtract a b | .multiply a b | .memset a b | .divide a b => do
                let (deps₁, visited₂) ← collectRec reg fuel a deps visited₁
                let (deps₂, visited₃) ← collectRec reg fuel b deps₁ visited₂
                some (alistInsert cur node deps₂, visited₃)

/-- `LazyBuffer::collect_dependencies`, started from a root identity. -/
def collectDependencies (reg : List LazyBuffer) (root : Nat) : Option DepsMap :=
  (collectRec reg (reg.length + 2) root [] []).map (·.1)

/-- Operand identities the `visit` function of `topological_sort` recurses
into: both operands of the four arithmetic ops, only the source of `Memset`,
nothing for `Creation`/`Clear`. -/
def visitOperands (node : LazyBuffer) : List Nat :=
  match node.operation with
  | .creation _ => []
  | .clear _ => []
  | .add a b => [a, b]
  | .subtract a b => [a, b]
  | .multiply a b => [a, b]
  | .divide a b => [a, b]
  | .memset _ b => [b]

/-- `visit` inside `LazyBuffer::topological_sort`: a temporary-marked node is
a cycle (panic, `none`); a permanently marked node returns unchanged;
otherwise temporary-mark, recurse into `visitOperands`, then unmark, mark
permanent and append to the result. -/
def topoVisit (deps : DepsMap) :
    Nat → Nat → List Nat → List Nat → List Nat →
    Option (List Nat × List Nat × List Nat)
  | 0, _, _, _, _ => none
  | fuel + 1, nodeId, temp, perm, result =>
      if nodeId ∈ temp then none
      else if nodeId ∈ perm then some (temp, perm, result)
      else
        match alistLookup nodeId deps with
        | none => none
        | some node => do
            let (temp₂, perm₂, result₂) ←
              match visitOperands node with
              | [] => some (nodeId :: temp, perm, result)
              | [b] => topoVisit deps fuel b (nodeId :: temp) perm result
              | [a, b] => do
                  let (t₁, p₁, r₁) ← topoVisit deps fuel a (nodeId :: temp) perm result
                  topoVisit deps fuel b t₁ p₁ r₁
              | _ :: _ :: _ :: _ => none
            some (temp₂.filter (fun x => x ≠ nodeId), nodeId :: perm₂, result₂ ++ [nodeId])

/-- `LazyBuffer::topological_sort`: run `visit` from every not-yet-permanent
key, threading the three mark sets, and return the result order.  The key
iteration order is the input list's order (see `DepsMap`). -/
def topologicalSort (deps : DepsMap) : Option (List Nat) :=
  ((deps.map (·.1)).foldlM
    (fun (st : List Nat × List Nat × List Nat) k =>
      if k ∈ st.2.1 then some st
      else topoVisit deps (deps.length + 2) k st.1 st.2.1 st.2.2)
    ([], [], [])).map (·.2.2)

/-- One backend call issued during realization, for counting. -/
inductive BEvent where
  | alloc (id size : Nat)
  | upload (id : Nat) (data : List F32)
  | bop (k : CPUBackend.BinOpKind) (a b r : Nat) (size : Nat)
  | memsetOp (a b : Nat) (size : Nat)
deriving DecidableEq

/-- Number of arithmetic backend operations (add/subtract/multiply/divide and
memset) in a trace. -/
def countArith (ev : List BEvent) : Nat :=
  (ev.filter (fun e =>
    match e with
    | .bop _ _ _ _ _ => true
    | .memsetOp _ _ _ => true
    | _ => false)).length

/-- Number of uploads (`to_device` calls) in a trace. -/
def countUploads (ev : List BEvent) : Nat :=
  (ev.filter (fun e =>
    match e with
    | .upload _ _ => true
    | _ => false)).length

/-- The allocation pass of `realize_impl`: for every identity in topological
order, look the node up (`unwrap`), call `allocate_buffer`, and record the
handle in the handle map. -/
def allocPass (deps : DepsMap) (order : List Nat) (s : CPUState) :
    Option (List (Nat × BufferHandle) × CPUState × List BEvent) :=
  order.foldlM
    (fun (acc : List (Nat × BufferHandle) × CPUState × List BEvent) id => do
      let node ← alistLookup id deps
      let (h, st) := CPUBackend.allocate_buffer acc.2.1 id node.size
      some (alistInsert id h acc.1, st, acc.2.2 ++ [.alloc id node.size]))
    ([], s, [])

/-- One step of the execution pass of `realize_impl`: `Creation(Random)`
uploads a zero-filled vector, `Creation(RawData)` uploads the inlined data,
`Creation(Created)` is skipped, the four arithmetic ops and `Memset` look up
their operand handles (`unwrap`) and issue the backend call, and any other
variant (`Clear`) hits the `Unsupported operation` panic. -/
def execStep (deps : DepsMap) (handles : List (Nat × BufferHandle))
    (acc : CPUState × List BEvent) (id : Nat) : Option (CPUState × List BEvent) := do
  let node ← alistLookup id deps
  let rh ← alistLookup id handles
  match node.operation with
  | .creation .random =>
      some (CPUBackend.to_device acc.1 (List.replicate node.size (F32.finite 0)) rh,
        acc.2 ++ [.upload id (List.replicate node.size (F32.finite 0))])
  | .creation (.rawData data) =>
      some (CPUBackend.to_device acc.1 data rh, acc.2 ++ [.upload id data])
  | .creation .created => some acc
  | .add a b => do
      let ah ← alistLookup a handles
      let bh ← alistLookup b handles
      let st ← CPUBackend.binOp .add acc.1 ah bh rh node.size
      some (st, acc.2 ++ [.bop .add a b id node.size])
  | .subtract a b => do
      let ah ← alistLookup a handles
      let bh ← alistLookup b handles
      let st ← CPUBackend.binOp .subtract acc.1 ah bh rh node.size
      some (st, acc.2 ++ [.bop .subtract a b id node.size])
  | .multiply a b => do
      let ah ← alistLookup a handles
      let bh ← alistLookup b handles
      let st ← CPUBackend.binOp .multiply acc.1 ah bh rh node.size
      some (st, acc.2 ++ [.bop .multiply a b id node.size])
  | .divide a b => do
      let ah ← alistLookup a handles
      let bh ← alistLookup b handles
      let st ← CPUBackend.binOp .divide acc.1 ah bh rh node.size
      some (st, acc.2 ++ [.bop .divide a b id node.size])
  | .memset a b => do
      let ah ← alistLookup a handles
      let bh ← alistLookup b handles
      let st ← CPUBackend.memset acc.1 ah bh node.size
      some (st, acc.2 ++ [.memsetOp a b node.size])
  | .clear _ => none

/-- `LazyBuffer::realize_impl` against the host backend, instrumented with
the trace of issued backend calls: topologically sort the dependency map,
allocate every node's device buffer, then execute every node in order. -/
def realizeImpl (deps : DepsMap) (s : CPUState) :
    Option (List (Nat × BufferHandle) × CPUState × List BEvent) := do
  let order ← topologicalSort deps
  let (handles, s₁, ev₁) ← allocPass deps order s
  let (s₂, ev₂) ← order.foldlM (execStep deps handles) (s₁, ev₁)
  some (handles, s₂, ev₂)

/-- The commit loop at the end of `LazyBufferHandle::realize`: for every
entry of the handle map, store the device handle on the registry node
(`get_mut`/`unwrap`) and rewrite `Creation(Random)`/`Creation(RawData)`
operations to `Creation(Created)`; every other operation is untouched. -/
def rewriteOp : LazyOp → LazyOp
  | .creation .random => .creation .created
  | .creation (.rawData _) => .creation .created
  | op => op

/-- The commit loop of `realize`: for every pair of the handle map, look the
node up mutably (`unwrap`) and store the device handle and the rewritten
operation. -/
def commitHandles (handles : List (Nat × BufferHandle)) (reg : List LazyBuffer) :
    Option (List LazyBuffer) :=
  handles.foldlM
    (fun (r : List LazyBuffer) (p : Nat × BufferHandle) => do
      let b ← r[p.1]?
      some (r.set p.1 { b with deviceBuffer := some p.2, operation := rewriteOp b.operation }))
    reg

/-- `LazyBufferHandle::realize` (host backend, `to_host` is unused by the
source): look the root up, collect dependencies, run `realize_impl`, then
commit handles and the `Created` rewrite into the registry. -/
def realizeHandle (reg : List LazyBuffer) (root : Nat) (s : CPUState) :
    Option (List LazyBuffer × CPUState × List BEvent) := do
  let _rootBuf ← reg[root]?
  let deps ← collectDependencies reg root
  let (handles, s₁, ev) ← realizeImpl deps s
  let reg₁ ← commitHandles handles reg
  some (reg₁, s₁, ev)

/-! ## The autograd engine (`src/src/tensor.rs`)

`src/src/tensor.rs` holds tensors and operations by `Arc` reference and
stores a `TensorOperation` inside each `LazyBuffer`; the revision of
`lazybuffer.rs` it links against is not in the tree (the two in-tree
revisions expose a different `LazyBuffer` interface), so that type is
modelled from the spec below. -/

mutual
/-- `Tensor`: a value buffer, an optional gradient buffer, and the
requires-grad flag. -/
inductive ATensor where
  | mk (buffer : ALazy) (gradient : Option ALazy) (requiresGrad : Bool)

/-- Modelled from the spec: the `LazyBuffer` revision that `tensor.rs` links
against is missing from the tree.  Per spec §3 and §4.4 a lazy buffer carries
a monotonic identity, a size (element count), the optional inlined host data,
and the operation that produced it. -/
inductive ALazy where
  | mk (id : Nat) (size : Nat) (data : Option (List F32)) (operation : ATOp)

/-- `TensorOperation`: creation or one of the four binary ops over
(`Arc`-shared) operand tensors. -/
inductive ATOp where
  | creation
  | add (l r : ATensor)
  | subtract (l r : ATensor)
  | multiply (l r : ATensor)
  | divide (l r : ATensor)
end

/-- Field accessor. -/
def ATensor.buffer : ATensor → ALazy
  | .mk b _ _ => b

/-- Field accessor. -/
def ATensor.gradient : ATensor → Option ALazy
  | .mk _ g _ => g

/-- Field accessor. -/
def ATensor.requiresGrad : ATensor → Bool
  | .mk _ _ r => r

/-- Field accessor. -/
def ALazy.id : ALazy → Nat
  | .mk i _ _ _ => i

/-- Field accessor. -/
def ALazy.size : ALazy → Nat
  | .mk _ s _ _ => s

/-- Field accessor. -/
def ALazy.data : ALazy → Option (List F32)
  | .mk _ _ d _ => d

/-- Field accessor. -/
def ALazy.operation : ALazy → ATOp
  | .mk _ _ _ op => op

/-- Modelled from the spec: `LazyBuffer::new(data)` registers a `Creation`
node with a fresh monotonic identity whose size is the data length (spec
§4.4, from-tensor-data; both in-tree revisions also assign a fresh counter
identity here).  The counter (`get_next_id`) is threaded explicitly. -/
def ALazy.new (data : List F32) (c : Nat) : ALazy × Nat :=
  (.mk c data.length (some data) .creation, c + 1)

/-- Size of a binary op node: the operand size (spec invariant I1). -/
def ATOp.derivedSize : ATOp → Nat
  | .creation => 0
  | .add l _ => l.buffer.size
  | .subtract l _ => l.buffer.size
  | .multiply l _ => l.buffer.size
  | .divide l _ => l.buffer.size

/-- Modelled from the spec: `LazyBuffer::from_operation(op)` registers an op
node with a fresh monotonic identity, no inlined data, and the operand's
size (spec §4.4 / invariant I1). -/
def ALazy.from_operation (op : ATOp) (c : Nat) : ALazy × Nat :=
  (.mk c op.derivedSize none op, c + 1)

/-- `Tensor { buffer, gradient: None, requires_grad: false }` as built around
operand buffers throughout `Tensor::backward`. -/
def wrapNoGrad (b : ALazy) : ATensor := .mk b none false

/-- `tensor.gradient = Some(g)` on a cloned tensor. -/
def ATensor.withGradient : ATensor → ALazy → ATensor
  | .mk b _ r, g => .mk b (some g) r

/-- The body of the `while let` in `Tensor::backward` for one popped pair
`(curr_tensor, curr_gradient)` whose operation is *not* `Creation`: the list
of `(tensor, gradient)` pairs pushed onto the queue, in push order, plus the
advanced id counter.  Mirrors `src/src/tensor.rs` lines 70–218. -/
def backwardStep (t : ATensor) (g : ALazy) (c : Nat) :
    List (ATensor × ALazy) × Nat :=
  match t.buffer.operation with
  | .creation => ([], c)
  | .add l r => ([(l.withGradient g, g), (r.withGradient g, g)], c)
  | .multiply l r =>
      let (leftGrad, c₁) :=
        ALazy.from_operation (.multiply (wrapNoGrad r.buffer) (wrapNoGrad g)) c
      let (rightGrad, c₂) :=
        ALazy.from_operation (.multiply (wrapNoGrad l.buffer) (wrapNoGrad g)) c₁
      ([(l.withGradient leftGrad, leftGrad), (r.withGradient rightGrad, rightGrad)], c₂)
  | .divide l r =>
      let (leftGrad, c₁) := ALazy.from_operation (.divide (wrapNoGrad g) r) c
      let (negOneBuf, c₂) := ALazy.new (List.replicate g.size (F32.finite (-1))) c₁
      let (negGrad, c₃) :=
        ALazy.from_operation (.multiply (wrapNoGrad g) (wrapNoGrad negOneBuf)) c₂
      let (temp, c₄) :=
        ALazy.from_operation (.multiply (wrapNoGrad l.buffer) (wrapNoGrad negGrad)) c₃
      let (rightSquared, c₅) :=
        ALazy.from_operation (.multiply (wrapNoGrad r.buffer) (wrapNoGrad r.buffer)) c₄
      let (rightGrad, c₆) :=
        ALazy.from_operation (.divide (wrapNoGrad temp) (wrapNoGrad rightSquared)) c₅
      ([(l.withGradient leftGrad, leftGrad), (r.withGradient rightGrad, rightGrad)], c₆)
  | .subtract l r =>
      let (negOneBuf, c₁) := ALazy.new (List.replicate g.size (F32.finite (-1))) c
      let (rightGrad, c₂) :=
        ALazy.from_operation (.multiply (wrapNoGrad g) (wrapNoGrad negOneBuf)) c₁
      ([(l.withGradient g, g), (r.withGradient rightGrad, rightGrad)], c₂)

/-- The `while let` loop of `Tensor::backward`, threading the FIFO queue, the
root tensor's live `self.gradient` slot, and the id counter.  A popped tensor
with `requires_grad` false is skipped; a `Creation` tensor folds its incoming
gradient into `self.gradient` (fresh `Add` node when a gradient is already
present); any other op pushes the pairs from `backwardStep`.  Fuelled: the
original terminates because every pushed tensor is a strict sub-tree of the
popped one. -/
def backwardLoop :
    Nat → List (ATensor × ALazy) → Option ALazy → Nat → Option (Option ALazy × Nat)
  | _, [], rootGrad, c => some (rootGrad, c)
  | 0, _ :: _, _, _ => none
  | fuel + 1, (t, g) :: rest, rootGrad, c =>
      if t.requiresGrad then
        match t.buffer.operation with
        | .creation =>
            match rootGrad with
            | none => backwardLoop fuel rest (some g) c
            | some eg =>
                let (newGrad, c₁) :=
                  ALazy.from_operation (.add (wrapNoGrad eg) (wrapNoGrad g)) c
                backwardLoop fuel rest (some newGrad) c₁
        | _ =>
            let (pushes, c₁) := backwardStep t g c
            backwardLoop fuel (rest ++ pushes) rootGrad c₁
      else backwardLoop fuel rest rootGrad c

/-- Replace the gradient slot by an optional value (used to write back
`self.gradient` at the end of `backward`). -/
def ATensor.withGradient₀ : ATensor → Option ALazy → ATensor
  | .mk b _ r, g => .mk b g r

/-- `Tensor::backward` (gradient-graph construction; the trailing pass that
realizes the involved gradients touches only buffer data, never identities):
push `(self.clone(), ones)` with a freshly created ones buffer, assign a
second fresh ones buffer to `self.gradient`, run the loop, and return the
tensor with its final gradient slot along with the advanced counter. -/
def backward (t : ATensor) (c : Nat) (fuel : Nat) : Option (ATensor × Nat) :=
  let (ones₁, c₁) := ALazy.new (List.replicate t.buffer.size (F32.finite 1)) c
  let (ones₂, c₂) := ALazy.new (List.replicate t.buffer.size (F32.finite 1)) c₁
  (backwardLoop fuel [(t, ones₁)] (some ones₂) c₂).map
    (fun p => (t.withGradient₀ p.1, p.2))

/-- Element-wise evaluation of a lazy buffer: inlined data if present,
otherwise the operation applied element-wise to the operand buffers (the
backend contract of §4.1, with equal-length operands as asserted by every
backend); a data-less `Creation` panics. -/
def evalLazy : ALazy → Option (List F32)
  | .mk _ _ (some d) _ => some d
  | .mk _ _ none .creation => none
  | .mk _ _ none (.add (.mk lb _ _) (.mk rb _ _)) => do
      let a ← evalLazy lb
      let b ← evalLazy rb
      if a.length = b.length then some (List.zipWith F32.add a b) else none
  | .mk _ _ none (.subtract (.mk lb _ _) (.mk rb _ _)) => do
      let a ← evalLazy lb
      let b ← evalLazy rb
      if a.length = b.length then some (List.zipWith F32.sub a b) else none
  | .mk _ _ none (.multiply (.mk lb _ _) (.mk rb _ _)) => do
      let a ← evalLazy lb
      let b ← evalLazy rb
      if a.length = b.length then some (List.zipWith F32.mul a b) else none
  | .mk _ _ none (.divide (.mk lb _ _) (.mk rb _ _)) => do
      let a ← evalLazy lb
      let b ← evalLazy rb
      if a.length = b.length then some (List.zipWith F32.div a b) else none

/-! ## Association-list lemmas -/

theorem alistLookup_insert_self {α β : Type} [DecidableEq α] (k : α) (v : β)
    (l : List (α × β)) : alistLookup k (alistInsert k v l) = some v := by
  induction l with
  | nil => simp [alistInsert, alistLookup]
  | cons hd tl ih =>
      by_cases h : k = hd.1
      · simp [alistInsert, alistLookup, h]
      · simp [alistInsert, alistLookup, h, ih]

theorem alistLookup_insert_of_ne {α β : Type} [DecidableEq α] {k k₂ : α}
    (v : β) (l : List (α × β)) (h : k ≠ k₂) :
    alistLookup k (alistInsert k₂ v l) = alistLookup k l := by
  induction l with
  | nil => simp [alistInsert, alistLookup, h]
  | cons hd tl ih =>
      by_cases h₂ : k₂ = hd.1
      · subst h₂
        simp [alistInsert, alistLookup, h]
      · by_cases h₃ : k = hd.1 <;> simp [alistInsert, alistLookup, h₂, h₃, ih]

/-! ## Registry characterisation lemmas -/

/-- The registry bookkeeping invariant: the id counter equals the registry
length and every node sits at the index equal to its identity. -/
def RegInv (s : RegState) : Prop :=
  s.nextId = s.registry.length ∧
  ∀ i (h : i < s.registry.length), (s.registry.get ⟨i, h⟩).id = i

instance (s : RegState) : Decidable (RegInv s) := by
  unfold RegInv; infer_instance

/-- Whether a `LazyOp` is one of the four arithmetic binary variants. -/
def LazyOp.isArithBinary : LazyOp → Bool
  | .add _ _ => true
  | .subtract _ _ => true
  | .multiply _ _ => true
  | .divide _ _ => true
  | _ => false

theorem fromTensorOpFresh_spec {t : Nat} {op : LazyOp} {s : RegState}
    {h : Nat} {s₂ : RegState}
    (hrun : LazyBuffer.fromTensorOpFresh t op s = some (h, s₂)) :
    (∃ a b sz, op = .memset a b ∧ h = a ∧ a < s.registry.length ∧
       s₂ = { s with registry := s.registry.set a ⟨a, .tensorData t, sz, op, none⟩ }) ∨
    (op.isArithBinary = true ∧ ∃ sz, h = s.nextId ∧
       s₂ = { s with
         nextId := s.nextId + 1,
         registry := s.registry ++ [⟨s.nextId, .tensorData t, sz, op, none⟩],
         tensorToBuffers := LazyBuffer.ttbPush t s.nextId s.tensorToBuffers }) := by
  cases op with
  | creation c => simp [LazyBuffer.fromTensorOpFresh, LazyBuffer.sizeOperands] at hrun
  | clear a => simp [LazyBuffer.fromTensorOpFresh, LazyBuffer.sizeOperands] at hrun
  | memset a b =>
      left
      simp only [LazyBuffer.fromTensorOpFresh, LazyBuffer.sizeOperands,
        Option.bind_eq_bind, Option.some_bind] at hrun
      cases hba : s.registry[a]? with
      | none => rw [hba] at hrun; simp at hrun
      | some ba =>
          cases hbb : s.registry[b]? with
          | none => rw [hba, hbb] at hrun; simp at hrun
          | some bb =>
              rw [hba, hbb] at hrun
              simp only [Option.some_bind] at hrun
              by_cases hsz : ba.size ≠ bb.size
              · simp [hsz] at hrun
              · simp only [hsz, if_false] at hrun
                by_cases hlt : a < s.registry.length
                · simp only [hlt, if_true, Option.some.injEq, Prod.mk.injEq] at hrun
                  exact ⟨a, b, ba.size, rfl, hrun.1.symm, hlt, hrun.2.symm⟩
                · simp [hlt] at hrun
  | add a b =>
      right
      simp only [LazyBuffer.fromTensorOpFresh, LazyBuffer.sizeOperands,
        Option.bind_eq_bind, Option.some_bind] at hrun
      cases hba : s.registry[a]? with
      | none => rw [hba] at hrun; simp at hrun
      | some ba =>
          cases hbb : s.registry[b]? with
          | none => rw [hba, hbb] at hrun; simp at hrun
          | some bb =>
              rw [hba, hbb] at hrun
              simp only [Option.some_bind] at hrun
              by_cases hsz : ba.size ≠ bb.size
              · simp [hsz] at hrun
              · simp only [hsz, if_false, get_next_buffer_id,
                  Option.some.injEq, Prod.mk.injEq] at hrun
                exact ⟨rfl, ba.size, hrun.1.symm, hrun.2.symm⟩
  | subtract a b =>
      right
      simp only [LazyBuffer.fromTensorOpFresh, LazyBuffer.sizeOperands,
        Option.bind_eq_bind, Option.some_bind] at hrun
      cases hba : s.registry[a]? with
      | none => rw [hba] at hrun; simp at hrun
      | some ba =>
          cases hbb : s.registry[b]? with
          | none => rw [hba, hbb] at hrun; simp at hrun
          | some bb =>
              rw [hba, hbb] at hrun
              simp only [Option.some_bind] at hrun
              by_cases hsz : ba.size ≠ bb.size
              · simp [hsz] at hrun
              · simp only [hsz, if_false, get_next_buffer_id,
                  Option.some.injEq, Prod.mk.injEq] at hrun
                exact ⟨rfl, ba.size, hrun.1.symm, hrun.2.symm⟩
  | multiply a b =>
      right
      simp only [LazyBuffer.fromTensorOpFresh, LazyBuffer.sizeOperands,
        Option.bind_eq_bind, Option.some_bind] at hrun
      cases hba : s.registry[a]? with
      | none => rw [hba] at hrun; simp at hrun
      | some ba =>
          cases hbb : s.registry[b]? with
          | none => rw [hba, hbb] at hrun; simp at hrun
          | some bb =>
              rw [hba, hbb] at hrun
              simp only [Option.some_bind] at hrun
              by_cases hsz : ba.size ≠ bb.size
              · simp [hsz] at hrun
              · simp only [hsz, if_false, get_next_buffer_id,
                  Option.some.injEq, Prod.mk.injEq] at hrun
                exact ⟨rfl, ba.size, hrun.1.symm, hrun.2.symm⟩
  | divide a b =>
      right
      simp only [LazyBuffer.fromTensorOpFresh, LazyBuffer.sizeOperands,
        Option.bind_eq_bind, Option.some_bind] at hrun
      cases hba : s.registry[a]? with
      | none => rw [hba] at hrun; simp at hrun
      | some ba =>
          cases hbb : s.registry[b]? with
          | none => rw [hba, hbb] at hrun; simp at hrun
          | some bb =>
              rw [hba, hbb] at hrun
              simp only [Option.some_bind] at hrun
              by_cases hsz : ba.size ≠ bb.size
              · simp [hsz] at hrun
              · simp only [hsz, if_false, get_next_buffer_id,
                  Option.some.injEq, Prod.mk.injEq] at hrun
                exact ⟨rfl, ba.size, hrun.1.symm, hrun.2.symm⟩

theorem scratchOpFresh_spec {op : LazyOp} {s : RegState} {h : Nat} {s₂ : RegState}
    (hrun : LazyBuffer.scratchOpFresh op s = some (h, s₂)) :
    ∃ sz cache₂, h = s.nextId ∧
      s₂ = { s with
        nextId := s.nextId + 1,
        registry := s.registry ++ [⟨s.nextId, .scratch, sz, op, none⟩],
        scratchOpCache := cache₂ } := by
  cases hsz : LazyBuffer.scratchOpSize op s with
  | none => simp [LazyBuffer.scratchOpFresh, hsz] at hrun
  | some sz =>
      cases hk : opHashKey op with
      | none =>
          simp only [LazyBuffer.scratchOpFresh, hsz, hk, get_next_buffer_id,
            Option.bind_eq_bind, Option.some_bind, Option.some.injEq, Prod.mk.injEq] at hrun
          exact ⟨sz, _, hrun.1.symm, hrun.2.symm⟩
      | some key =>
          simp only [LazyBuffer.scratchOpFresh, hsz, hk, get_next_buffer_id,
            Option.bind_eq_bind, Option.some_bind, Option.some.injEq, Prod.mk.injEq] at hrun
          exact ⟨sz, _, hrun.1.symm, hrun.2.symm⟩

/-- The per-call trichotomy: every successful constructor call either leaves
the registry and counter untouched (cache hits), appends exactly one node
whose identity is the pre-call counter value (which it returns), or — the
`Memset` case of `from_tensor_op` only — overwrites the slot at the
destination index with a node reusing that identity, preserving the length
and the counter. -/
theorem regCall_step_spec {c : RegCall} {s : RegState} {h : Nat} {s₂ : RegState}
    (hrun : c.run s = some (h, s₂)) :
    (s₂.registry = s.registry ∧ s₂.nextId = s.nextId) ∨
    (∃ b, s₂.registry = s.registry ++ [b] ∧ b.id = s.nextId ∧ h = s.nextId ∧
      s₂.nextId = s.nextId + 1) ∨
    (∃ t a b bf, c = .fromOp t (.memset a b) ∧ h = a ∧ bf.id = a ∧
      a < s.registry.length ∧ s₂.registry = s.registry.set a bf ∧
      s₂.nextId = s.nextId) := by
  cases c with
  | newBuf t data =>
      simp only [RegCall.run, LazyBuffer.new, get_next_buffer_id,
        Option.some.injEq, Prod.mk.injEq] at hrun
      right; left
      exact ⟨_, by rw [← hrun.2], by simp, hrun.1.symm, by rw [← hrun.2]⟩
  | scratch data =>
      cases hl : alistLookup data s.scratchCache with
      | some hh =>
          left
          simp only [RegCall.run, LazyBuffer.scratch, hl, Option.some.injEq,
            Prod.mk.injEq] at hrun
          rw [← hrun.2]
          exact ⟨rfl, rfl⟩
      | none =>
          right; left
          simp only [RegCall.run, LazyBuffer.scratch, hl, get_next_buffer_id,
            Option.some.injEq, Prod.mk.injEq] at hrun
          exact ⟨_, by rw [← hrun.2], by simp, hrun.1.symm, by rw [← hrun.2]⟩
  | fromOp t op =>
      have hfresh : LazyBuffer.fromTensorOpFresh t op s = some (h, s₂) →
          (∃ b, s₂.registry = s.registry ++ [b] ∧ b.id = s.nextId ∧ h = s.nextId ∧
            s₂.nextId = s.nextId + 1) ∨
          (∃ t₂ a b bf, RegCall.fromOp t op = .fromOp t₂ (.memset a b) ∧ h = a ∧
            bf.id = a ∧ a < s.registry.length ∧ s₂.registry = s.registry.set a bf ∧
            s₂.nextId = s.nextId) := by
        intro hf
        rcases fromTensorOpFresh_spec hf with ⟨a, b, sz, hop, hha, hlt, hs₂⟩ | ⟨_, sz, hh, hs₂⟩
        · right
          exact ⟨t, a, b, _, by rw [hop], hha, rfl, hlt, by rw [hs₂], by rw [hs₂]⟩
        · left
          exact ⟨_, by rw [hs₂], rfl, hh, by rw [hs₂]⟩
      cases hl : alistLookup t s.tensorToBuffers with
      | none =>
          simp only [RegCall.run, LazyBuffer.from_tensor_op, hl] at hrun
          rcases hfresh hrun with h₂ | h₂
          · exact Or.inr (Or.inl h₂)
          · exact Or.inr (Or.inr h₂)
      | some handles =>
          cases hm : LazyBuffer.findMemo s op handles with
          | none =>
              simp [RegCall.run, LazyBuffer.from_tensor_op, hl, hm] at hrun
          | some r =>
              cases r with
              | some hh =>
                  simp only [RegCall.run, LazyBuffer.from_tensor_op, hl, hm,
                    Option.some.injEq, Prod.mk.injEq] at hrun
                  left
                  rw [← hrun.2]
                  exact ⟨rfl, rfl⟩
              | none =>
                  simp only [RegCall.run, LazyBuffer.from_tensor_op, hl, hm] at hrun
                  rcases hfresh hrun with h₂ | h₂
                  · exact Or.inr (Or.inl h₂)
                  · exact Or.inr (Or.inr h₂)
  | scratchOp op =>
      have hfresh : LazyBuffer.scratchOpFresh op s = some (h, s₂) →
          (∃ b, s₂.registry = s.registry ++ [b] ∧ b.id = s.nextId ∧ h = s.nextId ∧
            s₂.nextId = s.nextId + 1) := by
        intro hf
        rcases scratchOpFresh_spec hf with ⟨sz, cache₂, hh, hs₂⟩
        exact ⟨_, by rw [hs₂], rfl, hh, by rw [hs₂]⟩
      cases hk : opHashKey op with
      | none =>
          simp only [RegCall.run, LazyBuffer.scratch_op, hk] at hrun
          exact Or.inr (Or.inl (hfresh hrun))
      | some key =>
          cases hl : alistLookup key s.scratchOpCache with
          | some hh =>
              simp only [RegCall.run, LazyBuffer.scratch_op, hk, hl,
                Option.some.injEq, Prod.mk.injEq] at hrun
              left
              rw [← hrun.2]
              exact ⟨rfl, rfl⟩
          | none =>
              simp only [RegCall.run, LazyBuffer.scratch_op, hk, hl] at hrun
              exact Or.inr (Or.inl (hfresh hrun))

/-- `RegInv` phrased through total lookups, which is easier to manipulate. -/
theorem regInv_iff (s : RegState) :
    RegInv s ↔ (s.nextId = s.registry.length ∧
      ∀ (i : Nat) (b : LazyBuffer), s.registry[i]? = some b → b.id = i) := by
  constructor
  · rintro ⟨hlen, hid⟩
    refine ⟨hlen, fun i b hib => ?_⟩
    rcases List.getElem?_eq_some_iff.mp hib with ⟨hi, hget⟩
    have := hid i hi
    simp only [List.get_eq_getElem] at this
    rw [hget] at this
    exact this
  · rintro ⟨hlen, hid⟩
    refine ⟨hlen, fun i hi => ?_⟩
    exact hid i _ (by simp [List.getElem?_eq_getElem hi, List.get_eq_getElem])

/-- A successful constructor call preserves the registry invariant. -/
theorem regInv_step {c : RegCall} {s : RegState} {h : Nat} {s₂ : RegState}
    (hrun : c.run s = some (h, s₂)) (hinv : RegInv s) : RegInv s₂ := by
  rw [regInv_iff] at hinv ⊢
  obtain ⟨hlen, hid⟩ := hinv
  rcases regCall_step_spec hrun with ⟨hr, hn⟩ | ⟨b, hr, hb, _, hn⟩ |
      ⟨t, a, bdy, bf, _, _, hbf, hlt, hr, hn⟩
  · exact ⟨by rw [hr, hn, hlen], by rw [hr]; exact hid⟩
  · constructor
    · rw [hr, hn, hlen]
      simp
    · intro i bf hib
      rw [hr] at hib
      rcases Nat.lt_or_ge i s.registry.length with hi₂ | hi₂
      · rw [List.getElem?_append_left hi₂] at hib
        exact hid i bf hib
      · have hile : i < s.registry.length + 1 := by
          rcases List.getElem?_eq_some_iff.mp hib with ⟨hi, _⟩
          simpa using hi
        have hieq : i = s.registry.length := by omega
        rw [hieq, List.getElem?_concat_length] at hib
        rw [← Option.some.injEq] at hib
        simp only [Option.some.injEq] at hib
        rw [← hib, hb, hlen, hieq]
  · constructor
    · rw [hr, hn, hlen]
      simp
    · intro i bv hib
      rw [hr] at hib
      by_cases hia : a = i
      · subst hia
        rw [List.getElem?_set_self hlt] at hib
        simp only [Option.some.injEq] at hib
        rw [← hib]
        exact hbf
      · rw [List.getElem?_set_ne hia] at hib
        exact hid i bv hib

/-- The invariant holds after any successful call sequence from any
invariant-satisfying start state. -/
theorem regInv_runCalls {cs : List RegCall} {s s₂ : RegState}
    (hrun : runCalls cs s = some s₂) (hinv : RegInv s) : RegInv s₂ := by
  induction cs generalizing s with
  | nil => simp only [runCalls, Option.some.injEq] at hrun; rw [← hrun]; exact hinv
  | cons c rest ih =>
      simp only [runCalls, Option.bind_eq_bind] at hrun
      cases hc : c.run s with
      | none => rw [hc] at hrun; simp at hrun
      | some p =>
          rw [hc] at hrun
          simp only [Option.some_bind] at hrun
          exact ih hrun (regInv_step hc hinv)

/-- C9: after any sequence of registry-constructor calls from process start,
the registry node at index `i` has identity `i` for every `i` below the
registry length and the id counter equals the registry length; and every
single successful constructor call either leaves the registry untouched
(returning an existing handle), appends exactly one node carrying the next
identity, or — `Memset` inside `from_tensor_op` only — overwrites the slot at
the destination index with a node reusing that identity, keeping the length
and the counter. -/
theorem registry_identity_invariant :
    (∀ cs s₂, runCalls cs RegState.init = some s₂ → RegInv s₂) ∧
    (∀ (c : RegCall) (s : RegState) (h : Nat) (s₂ : RegState),
      c.run s = some (h, s₂) →
      (s₂.registry = s.registry ∧ s₂.nextId = s.nextId) ∨
      (∃ b, s₂.registry = s.registry ++ [b] ∧ b.id = s.nextId ∧ h = s.nextId ∧
        s₂.nextId = s.nextId + 1) ∨
      (∃ t a b bf, c = .fromOp t (.memset a b) ∧ h = a ∧ bf.id = a ∧
        a < s.registry.length ∧ s₂.registry = s.registry.set a bf ∧
        s₂.nextId = s.nextId)) :=
  ⟨fun _ _ hrun => regInv_runCalls hrun ⟨rfl, by intro i hi; simp [RegState.init] at hi⟩,
   fun _ _ _ _ hrun => regCall_step_spec hrun⟩

/-- The constructor-call sequence used to witness C9: two tensor-data
creations, an `Add` via `from_tensor_op`, a scratch creation, a scratch op,
and a `Memset` overwrite of node 0. -/
def csEx : List RegCall :=
  [.newBuf 0 [F32.finite 1], .newBuf 1 [F32.finite 2],
   .fromOp 2 (.add 0 1), .scratch [F32.finite 3, F32.finite 4],
   .scratchOp (.multiply 0 1), .fromOp 3 (.memset 0 1)]

/-- C9, witness: the invariant holds after running `csEx` from the initial
state. -/
theorem registry_identity_invariant_witness :
    RegInv ((runCalls csEx RegState.init).getD RegState.init) :=
  registry_identity_invariant.1 csEx _ (by decide)

/-! ## C5: tensor-scoped structural CSE -/

theorem memoHit_self {op : LazyOp} (hbin : op.isArithBinary = true) :
    LazyBuffer.memoHit op op = true := by
  cases op <;> simp_all [LazyOp.isArithBinary, LazyBuffer.memoHit]

theorem findMemo_extend {s s₂ : RegState} {op : LazyOp} {nb : LazyBuffer}
    (hreg : s₂.registry = s.registry ++ [nb]) :
    ∀ {hs : List Nat}, LazyBuffer.findMemo s op hs = some none →
      LazyBuffer.findMemo s₂ op hs = some none := by
  intro hs
  induction hs with
  | nil => intro _; rfl
  | cons h rest ih =>
      intro hm
      cases hg : s.registry[h]? with
      | none => simp [LazyBuffer.findMemo, hg] at hm
      | some buffer =>
          have hlt : h < s.registry.length :=
            (List.getElem?_eq_some_iff.mp hg).1
          have hg₂ : s₂.registry[h]? = some buffer := by
            rw [hreg, List.getElem?_append_left hlt]
            exact hg
          simp only [LazyBuffer.findMemo, hg, hg₂] at hm ⊢
          cases hhit : LazyBuffer.memoHit buffer.operation op with
          | true => simp [hhit] at hm
          | false =>
              simp only [hhit, Bool.false_eq_true, if_false] at hm ⊢
              exact ih hm

theorem findMemo_append {s₂ : RegState} {op : LazyOp} {h₁ : Nat} {nb : LazyBuffer}
    (hget : s₂.registry[h₁]? = some nb)
    (hhit : LazyBuffer.memoHit nb.operation op = true) :
    ∀ {hs : List Nat}, LazyBuffer.findMemo s₂ op hs = some none →
      LazyBuffer.findMemo s₂ op (hs ++ [h₁]) = some (some h₁) := by
  intro hs
  induction hs with
  | nil =>
      intro _
      simp [LazyBuffer.findMemo, hget, hhit]
  | cons h rest ih =>
      intro hm
      cases hg : s₂.registry[h]? with
      | none => simp [LazyBuffer.findMemo, hg] at hm
      | some buffer =>
          simp only [LazyBuffer.findMemo, hg] at hm ⊢
          cases hhit₂ : LazyBuffer.memoHit buffer.operation op with
          | true => simp [hhit₂] at hm
          | false =>
              simp only [hhit₂, Bool.false_eq_true, if_false] at hm ⊢
              exact ih hm

theorem ttbPush_lookup (t id : Nat) (m : List (Nat × List Nat)) :
    alistLookup t (LazyBuffer.ttbPush t id m) =
      some ((alistLookup t m).getD [] ++ [id]) := by
  cases hl : alistLookup t m <;>
    simp [LazyBuffer.ttbPush, hl, alistLookup_insert_self]

/-- C5: for any tensor identity, arithmetic binary op variant, and operand
handles, a second `from_tensor_op` with identical arguments returns exactly
the handle produced by the first call and leaves the whole registry state —
in particular the registry length — unchanged: the result state of the second
call is the result state of the first, so zero additional nodes are
appended. -/
theorem from_tensor_op_cse (t : Nat) (op : LazyOp) (s : RegState)
    (h₁ : Nat) (s₁ : RegState)
    (hbin : op.isArithBinary = true)
    (hlen : s.nextId = s.registry.length)
    (hrun : LazyBuffer.from_tensor_op t op s = some (h₁, s₁)) :
    LazyBuffer.from_tensor_op t op s₁ = some (h₁, s₁) := by
  cases hl : alistLookup t s.tensorToBuffers with
  | some handles =>
      cases hm : LazyBuffer.findMemo s op handles with
      | none => simp [LazyBuffer.from_tensor_op, hl, hm] at hrun
      | some r =>
          cases r with
          | some hh =>
              simp only [LazyBuffer.from_tensor_op, hl, hm, Option.some.injEq,
                Prod.mk.injEq] at hrun
              obtain ⟨hh₁, hs₁⟩ := hrun
              subst hh₁
              subst hs₁
              simp [LazyBuffer.from_tensor_op, hl, hm]
          | none =>
              simp only [LazyBuffer.from_tensor_op, hl, hm] at hrun
              rcases fromTensorOpFresh_spec hrun with ⟨a, b, sz, hop, _, _, _⟩ |
                  ⟨_, sz, hh, hs₁⟩
              · rw [hop] at hbin
                simp [LazyOp.isArithBinary] at hbin
              · have hreg : s₁.registry =
                    s.registry ++ [⟨s.nextId, .tensorData t, sz, op, none⟩] := by
                  rw [hs₁]
                have httb : alistLookup t s₁.tensorToBuffers =
                    some (handles ++ [s.nextId]) := by
                  rw [hs₁]
                  simp only [LazyBuffer.ttbPush, hl]
                  rw [alistLookup_insert_self]
                have hm₂ : LazyBuffer.findMemo s₁ op handles = some none :=
                  findMemo_extend hreg hm
                have hget : s₁.registry[s.nextId]? =
                    some ⟨s.nextId, .tensorData t, sz, op, none⟩ := by
                  rw [hreg]
                  rw [hlen]
                  exact List.getElem?_concat_length _ _
                have hfind : LazyBuffer.findMemo s₁ op (handles ++ [s.nextId]) =
                    some (some s.nextId) :=
                  findMemo_append hget (memoHit_self hbin) hm₂
                rw [hh]
                simp [LazyBuffer.from_tensor_op, httb, hfind]
  | none =>
      simp only [LazyBuffer.from_tensor_op, hl] at hrun
      rcases fromTensorOpFresh_spec hrun with ⟨a, b, sz, hop, _, _, _⟩ |
          ⟨_, sz, hh, hs₁⟩
      · rw [hop] at hbin
        simp [LazyOp.isArithBinary] at hbin
      · have hreg : s₁.registry =
            s.registry ++ [⟨s.nextId, .tensorData t, sz, op, none⟩] := by
          rw [hs₁]
        have httb : alistLookup t s₁.tensorToBuffers = some [s.nextId] := by
          rw [hs₁]
          simp only [LazyBuffer.ttbPush, hl]
          rw [alistLookup_insert_self]
        have hget : s₁.registry[s.nextId]? =
            some ⟨s.nextId, .tensorData t, sz, op, none⟩ := by
          rw [hreg]
          rw [hlen]
          exact List.getElem?_concat_length _ _
        have hfind : LazyBuffer.findMemo s₁ op [s.nextId] = some (some s.nextId) :=
          findMemo_append hget (memoHit_self hbin)
            (show LazyBuffer.findMemo s₁ op [] = some none from rfl)
        rw [hh]
        simp [LazyBuffer.from_tensor_op, httb, hfind]

/-- The start state for the C5 witness: two tensor-data creations. -/
def c5Start : RegState :=
  (runCalls [.newBuf 0 [F32.finite 1], .newBuf 1 [F32.finite 2]]
    RegState.init).getD RegState.init

/-- The first construction of `Add(0, 1)` for tensor 2 in the C5 witness. -/
def c5First : Nat × RegState :=
  (LazyBuffer.from_tensor_op 2 (.add 0 1) c5Start).getD (0, RegState.init)

/-- C5, witness: reconstructing `Add(0, 1)` for tensor 2 returns the identity
of the first construction with the state unchanged. -/
theorem from_tensor_op_cse_witness :
    LazyBuffer.from_tensor_op 2 (.add 0 1) c5First.2 = some (c5First.1, c5First.2) :=
  from_tensor_op_cse 2 (.add 0 1) c5Start c5First.1 c5First.2
    (by decide) (by decide) (by decide)

/-! ## C6: topological sort orders operands before consumers -/

/-- Operand identities per the claim's reading: both operands of the four
arithmetic ops, and both the destination and the source of `Memset`. -/
def claimOperands (node : LazyBuffer) : List Nat :=
  match node.operation with
  | .creation _ => []
  | .clear _ => []
  | .add a b => [a, b]
  | .subtract a b => [a, b]
  | .multiply a b => [a, b]
  | .divide a b => [a, b]
  | .memset a b => [a, b]

/-- Every listed operand of every node strictly precedes the node in the
order: whenever the order splits as `pre ++ node :: post`, the operands of
the node's entry in the dependency map all lie in `pre`. -/
def OrderedBefore (deps : DepsMap) (ops : LazyBuffer → List Nat)
    (order : List Nat) : Prop :=
  ∀ pre k post, order = pre ++ k :: post →
    ∀ node, alistLookup k deps = some node → ∀ y ∈ ops node, y ∈ pre

theorem orderedBefore_nil (deps : DepsMap) (ops : LazyBuffer → List Nat) :
    OrderedBefore deps ops [] := by
  intro pre k post heq
  exact absurd heq (by simp)

theorem orderedBefore_snoc {deps : DepsMap} {ops : LazyBuffer → List Nat}
    {result : List Nat} {k : Nat}
    (hOB : OrderedBefore deps ops result)
    (hk : ∀ node, alistLookup k deps = some node → ∀ y ∈ ops node, y ∈ result) :
    OrderedBefore deps ops (result ++ [k]) := by
  intro pre k₂ post heq node hlook y hy
  rcases List.eq_nil_or_concat post with hpost | ⟨post₀, z, hpost⟩
  · subst hpost
    obtain ⟨hres, hkk⟩ := List.append_inj' heq (by simp)
    subst hres
    have hkk₂ : k = k₂ := by simpa using hkk
    subst hkk₂
    exact hk node hlook y hy
  · subst hpost
    have heq₂ : result ++ [k] = (pre ++ k₂ :: post₀) ++ [z] := by
      rw [heq, List.concat_eq_append]
      simp
    obtain ⟨hres, _⟩ := List.append_inj' heq₂ (by simp)
    exact hOB pre k₂ post₀ hres node hlook y hy

/-- The invariant carried by the topological-sort proof: the permanent-mark
set and the result list have the same members, the result has no duplicates,
and the result is operand-ordered. -/
def TopoInv (deps : DepsMap) (perm result : List Nat) : Prop :=
  (∀ x, x ∈ perm ↔ x ∈ result) ∧ result.Nodup ∧
  OrderedBefore deps visitOperands result

theorem filter_ne_cons_self {a : Nat} {l : List Nat} (h : a ∉ l) :
    (a :: l).filter (fun x => x ≠ a) = l := by
  rw [List.filter_cons_of_neg (by simp)]
  refine List.filter_eq_self.mpr (fun x hx => ?_)
  simp only [ne_eq, decide_eq_true_eq]
  intro heq
  exact h (heq ▸ hx)

theorem topoVisit_spec {deps : DepsMap} :
    ∀ (fuel nodeId : Nat) (temp perm result : List Nat)
      (out : List Nat × List Nat × List Nat),
      topoVisit deps fuel nodeId temp perm result = some out →
      TopoInv deps perm result → (∀ x ∈ perm, x ∉ temp) →
      out.1 = temp ∧ TopoInv deps out.2.1 out.2.2 ∧
      (∀ x ∈ perm, x ∈ out.2.1) ∧ (∀ x ∈ out.2.1, x ∉ temp) ∧
      nodeId ∈ out.2.1 ∧ (∃ newElems, out.2.2 = result ++ newElems) := by
  intro fuel
  induction fuel with
  | zero =>
      intro nodeId temp perm result out hrun
      simp [topoVisit] at hrun
  | succ fuel ih =>
      intro nodeId temp perm result out hrun hInv hPT
      by_cases ht : nodeId ∈ temp
      · simp [topoVisit, ht] at hrun
      by_cases hp : nodeId ∈ perm
      · simp only [topoVisit, ht, hp, if_true, if_false, Option.some.injEq] at hrun
        subst hrun
        exact ⟨rfl, hInv, fun x hx => hx, hPT, hp, [], by simp⟩
      cases hlook : alistLookup nodeId deps with
      | none => simp [topoVisit, ht, hp, hlook] at hrun
      | some node =>
          have hchildPre : ∀ x ∈ perm, x ∉ nodeId :: temp := by
            intro x hx
            simp only [List.mem_cons, not_or]
            exact ⟨fun heq => hp (heq ▸ hx), hPT x hx⟩
          have hfinish :
              ∀ (st₂ : List Nat × List Nat × List Nat),
                out = (st₂.1.filter (fun x => x ≠ nodeId), nodeId :: st₂.2.1,
                  st₂.2.2 ++ [nodeId]) →
                st₂.1 = nodeId :: temp → TopoInv deps st₂.2.1 st₂.2.2 →
                (∀ x ∈ perm, x ∈ st₂.2.1) →
                (∀ x ∈ st₂.2.1, x ∉ nodeId :: temp) →
                (∀ y ∈ visitOperands node, y ∈ st₂.2.1) →
                (∃ newElems, st₂.2.2 = result ++ newElems) →
                out.1 = temp ∧ TopoInv deps out.2.1 out.2.2 ∧
                (∀ x ∈ perm, x ∈ out.2.1) ∧ (∀ x ∈ out.2.1, x ∉ temp) ∧
                nodeId ∈ out.2.1 ∧ (∃ newElems, out.2.2 = result ++ newElems) := by
            rintro ⟨t₂, p₂, r₂⟩ hout htemp ⟨hmem, hnd, hOB⟩ hmono hnotemp hopsin hext
            subst hout
            have hnodeNotP : nodeId ∉ p₂ := by
              intro hcon
              exact hnotemp nodeId hcon (by simp)
            have hnodeNotR : nodeId ∉ r₂ := fun hcon => hnodeNotP ((hmem nodeId).mpr hcon)
            refine ⟨?_, ⟨?_, ?_, ?_⟩, ?_, ?_, ?_, ?_⟩
            · show t₂.filter (fun x => x ≠ nodeId) = temp
              rw [show t₂ = nodeId :: temp from htemp]
              exact filter_ne_cons_self ht
            · intro x
              have hx := hmem x
              constructor
              · intro hmem₂
                rcases List.mem_cons.mp hmem₂ with heq | hp₃
                · exact List.mem_append.mpr (Or.inr (by simp [heq]))
                · exact List.mem_append.mpr (Or.inl (hx.mp hp₃))
              · intro hmem₂
                rcases List.mem_append.mp hmem₂ with hr | hs
                · exact List.mem_cons_of_mem _ (hx.mpr hr)
                · exact List.mem_cons.mpr (Or.inl (by simpa using hs))
            · simpa [List.nodup_append] using ⟨hnd, hnodeNotR⟩
            · refine orderedBefore_snoc hOB (fun node₂ hlook₂ y hy => ?_)
              rw [hlook] at hlook₂
              cases hlook₂
              exact (hmem y).mp (hopsin y hy)
            · intro x hx
              exact List.mem_cons_of_mem _ (hmono x hx)
            · intro x hx
              rcases List.mem_cons.mp hx with heq | hx₂
              · exact heq ▸ ht
              · intro hcon
                exact hnotemp x hx₂ (List.mem_cons_of_mem _ hcon)
            · simp
            · obtain ⟨ne, hne⟩ := hext
              exact ⟨ne ++ [nodeId], by rw [← List.append_assoc, ← hne]⟩
          cases hops : visitOperands node with
          | nil =>
              simp only [topoVisit, ht, hp, hlook, hops, if_false,
                Option.bind_eq_bind, Option.some_bind, Option.some.injEq] at hrun
              refine hfinish (nodeId :: temp, perm, result) hrun.symm rfl hInv
                (fun x hx => hx) ?_ (by simp [hops]) ⟨[], by simp⟩
              intro x hx
              exact hchildPre x hx
          | cons o₁ rest =>
              cases rest with
              | nil =>
                  cases hc : topoVisit deps fuel o₁ (nodeId :: temp) perm result with
                  | none =>
                      simp [topoVisit, ht, hp, hlook, hops, hc] at hrun
                  | some st₂ =>
                      simp only [topoVisit, ht, hp, hlook, hops, hc, if_false,
                        Option.bind_eq_bind, Option.some_bind, Option.some.injEq] at hrun
                      obtain ⟨htemp₂, hInv₂, hmono₂, hnotemp₂, ho₁, hext₂⟩ :=
                        ih o₁ (nodeId :: temp) perm result st₂ hc hInv hchildPre
                      refine hfinish st₂ ?_ htemp₂ hInv₂ hmono₂ hnotemp₂ ?_ hext₂
                      · obtain ⟨a₂, b₂, c₂⟩ := st₂
                        exact hrun.symm
                      · intro y hy
                        rw [hops] at hy
                        rcases List.mem_singleton.mp hy with heq
                        exact heq ▸ ho₁
              | cons o₂ rest₂ =>
                  cases rest₂ with
                  | nil =>
                      cases hc₁ : topoVisit deps fuel o₁ (nodeId :: temp) perm result with
                      | none =>
                          simp [topoVisit, ht, hp, hlook, hops, hc₁] at hrun
                      | some st₁ =>
                          obtain ⟨htemp₁, hInv₁, hmono₁, hnotemp₁, ho₁, hext₁⟩ :=
                            ih o₁ (nodeId :: temp) perm result st₁ hc₁ hInv hchildPre
                          cases hc₂ : topoVisit deps fuel o₂ st₁.1 st₁.2.1 st₁.2.2 with
                          | none =>
                              simp [topoVisit, ht, hp, hlook, hops, hc₁, hc₂] at hrun
                          | some st₂ =>
                              have hc₂' : topoVisit deps fuel o₂ (nodeId :: temp)
                                  st₁.2.1 st₁.2.2 = some st₂ := by
                                rw [← htemp₁]
                                exact hc₂
                              obtain ⟨htemp₂, hInv₂, hmono₂, hnotemp₂, ho₂, hext₂⟩ :=
                                ih o₂ (nodeId :: temp) st₁.2.1 st₁.2.2 st₂ hc₂' hInv₁
                                  hnotemp₁
                              simp only [topoVisit, ht, hp, hlook, hops, hc₁, hc₂,
                                if_false, Option.bind_eq_bind, Option.some_bind,
                                Option.some.injEq] at hrun
                              refine hfinish st₂ ?_ htemp₂ hInv₂
                                (fun x hx => hmono₂ x (hmono₁ x hx)) hnotemp₂ ?_ ?_
                              · obtain ⟨a₂, b₂, c₂⟩ := st₂
                                exact hrun.symm
                              · intro y hy
                                rw [hops] at hy
                                rcases List.mem_cons.mp hy with heq | hy₂
                                · exact heq ▸ hmono₂ o₁ ho₁
                                · rcases List.mem_singleton.mp hy₂ with heq
                                  exact heq ▸ ho₂
                              · obtain ⟨n₁, hn₁⟩ := hext₁
                                obtain ⟨n₂, hn₂⟩ := hext₂
                                exact ⟨n₁ ++ n₂, by rw [hn₂, hn₁, List.append_assoc]⟩
                  | cons o₃ rest₃ =>
                      simp [topoVisit, ht, hp, hlook, hops] at hrun

theorem topoFold_spec {deps : DepsMap} :
    ∀ (keys : List Nat) (st out : List Nat × List Nat × List Nat),
      keys.foldlM
        (fun (st : List Nat × List Nat × List Nat) k =>
          if k ∈ st.2.1 then some st
          else topoVisit deps (deps.length + 2) k st.1 st.2.1 st.2.2) st = some out →
      st.1 = [] → TopoInv deps st.2.1 st.2.2 →
      TopoInv deps out.2.1 out.2.2 ∧ (∀ x ∈ st.2.1, x ∈ out.2.1) ∧
      (∀ k ∈ keys, k ∈ out.2.1) := by
  intro keys
  induction keys with
  | nil =>
      intro st out hrun hT hInv
      simp only [List.foldlM_nil, Option.pure_def, Option.some.injEq] at hrun
      subst hrun
      exact ⟨hInv, fun x hx => hx, by simp⟩
  | cons k rest ih =>
      intro st out hrun hT hInv
      simp only [List.foldlM_cons, Option.bind_eq_bind] at hrun
      by_cases hk : k ∈ st.2.1
      · simp only [hk, if_true] at hrun
        obtain ⟨hInv₂, hmono, hkeys⟩ := ih st out hrun hT hInv
        refine ⟨hInv₂, hmono, fun x hx => ?_⟩
        rcases List.mem_cons.mp hx with heq | hx₂
        · exact heq ▸ hmono k hk
        · exact hkeys x hx₂
      · simp only [hk, if_false] at hrun
        cases hv : topoVisit deps (deps.length + 2) k st.1 st.2.1 st.2.2 with
        | none => rw [hv] at hrun; simp at hrun
        | some st₂ =>
            rw [hv] at hrun
            simp only [Option.some_bind] at hrun
            have hPT : ∀ x ∈ st.2.1, x ∉ st.1 := by
              rw [hT]
              intro x _ hx
              simp at hx
            obtain ⟨htemp₂, hInv₂, hmono₂, _, hkmem, _⟩ :=
              topoVisit_spec (deps.length + 2) k st.1 st.2.1 st.2.2 st₂ hv hInv hPT
            obtain ⟨hInv₃, hmono₃, hkeys₃⟩ :=
              ih st₂ out hrun (by rw [htemp₂, hT]) hInv₂
            refine ⟨hInv₃, fun x hx => hmono₃ x (hmono₂ x hx), fun x hx => ?_⟩
            rcases List.mem_cons.mp hx with heq | hx₂
            · exact heq ▸ hmono₃ k hkmem
            · exact hkeys₃ x hx₂

/-- C6, amended: in the order returned by `topological_sort`, every node of
the dependency map occurs, the order has no duplicates, and every node
appears strictly after all the operands its `visit` recursion descends into —
both operands of `Add`/`Subtract`/`Multiply`/`Divide` and the *source* of
`Memset`.  (The destination of a `Memset` node coincides with the node itself
— `from_tensor_op` reuses the destination identity for the `Memset` node — so
it cannot strictly precede it; see the counterexample.)  The statement
quantifies over the dependency list, hence over every `HashMap` iteration
order. -/
theorem topoSort_spec {deps : DepsMap} {order : List Nat}
    (hrun : topologicalSort deps = some order) :
    order.Nodup ∧ (∀ k ∈ deps.map (fun p => p.1), k ∈ order) ∧
    OrderedBefore deps visitOperands order := by
  cases hfold : (deps.map (fun p => p.1)).foldlM
      (fun (st : List Nat × List Nat × List Nat) k =>
        if k ∈ st.2.1 then some st
        else topoVisit deps (deps.length + 2) k st.1 st.2.1 st.2.2)
      ([], [], []) with
  | none =>
      rw [topologicalSort, hfold] at hrun
      exact absurd hrun (by simp)
  | some out =>
      rw [topologicalSort, hfold] at hrun
      replace hrun : out.2.2 = order := by
        simpa using hrun
      obtain ⟨⟨hmem, hnd, hOB⟩, _, hkeys⟩ :=
        topoFold_spec (deps.map (fun p => p.1)) ([], [], []) out hfold rfl
          ⟨by simp, List.nodup_nil, orderedBefore_nil deps visitOperands⟩
      subst hrun
      exact ⟨hnd, fun k hk => (hmem k).mp (hkeys k hk), hOB⟩

/-- C6, amended: in every order returned by `topological_sort` each node
appears exactly once, every collected node appears, and every node appears
after the operands its DFS actually visits — both operands of
`Add`/`Subtract`/`Multiply`/`Divide`, but only the **source** of `Memset`:
the `Memset` case of `topological_sort` (and of `collect_dependencies`)
pushes only operand `b`, and the claimed "destination" operand `a` is the
node's own registry slot (`from_tensor_op` overwrites `registry[a]` with the
`Memset` node itself), so no destination ordering exists to satisfy. -/
theorem topological_sort_orders_operands (deps : DepsMap) (order : List Nat)
    (hrun : topologicalSort deps = some order) :
    order.Nodup ∧ (∀ k ∈ deps.map (fun p => p.1), k ∈ order) ∧
    OrderedBefore deps visitOperands order :=
  topoSort_spec hrun

/-- The registry for the C6 counterexample: two tensor-data creations, then a
`Memset(0, 1)` which overwrites slot 0 reusing identity 0. -/
def c6Reg : List LazyBuffer :=
  ((runCalls [.newBuf 0 [F32.finite 1], .newBuf 1 [F32.finite 2],
    .fromOp 3 (.memset 0 1)] RegState.init).getD RegState.init).registry

/-- The dependency map collected from root 0 of `c6Reg`. -/
def c6Deps : DepsMap := (collectDependencies c6Reg 0).getD []

/-- C6, counterexample.  On the dependency map collected from root 0 of
`c6Reg` — whose node 0 is `Memset(0, 1)`, the destination being the node
itself — `topological_sort` returns `[1, 0]`, and node 0 does *not* appear
after its claimed operand 0 (the `Memset` destination): the claim's ordering
requirement fails for the destination operand of `Memset`. -/
theorem topological_sort_memset_destination_counterexample :
    collectDependencies c6Reg 0 = some c6Deps ∧
    topologicalSort c6Deps = some [1, 0] ∧
    ¬ OrderedBefore c6Deps claimOperands [1, 0] := by
  refine ⟨by decide, by decide, fun hOB => ?_⟩
  have h₀ := hOB [1] 0 [] rfl ⟨0, .tensorData 3, 1, .memset 0 1, none⟩
    (by decide) 0 (by decide)
  simp at h₀

/-- C6, witness for the amended theorem: the order `[1, 0]` on `c6Deps`
(where node 0 is `Memset(0, 1)`: its source 1 precedes it). -/
theorem topological_sort_orders_operands_witness :
    ([1, 0] : List Nat).Nodup ∧
    (∀ k ∈ c6Deps.map (fun p => p.1), k ∈ ([1, 0] : List Nat)) ∧
    OrderedBefore c6Deps visitOperands [1, 0] :=
  topological_sort_orders_operands c6Deps [1, 0] (by decide)

/-! ## C10: realizing a Creation(Random) node uploads zeros -/

theorem alistLookup_some_mem {α β : Type} [DecidableEq α] {k : α} {v : β} :
    ∀ {l : List (α × β)}, alistLookup k l = some v → k ∈ l.map (fun p => p.1) := by
  intro l
  induction l with
  | nil => intro h; simp [alistLookup] at h
  | cons hd tl ih =>
      intro h
      by_cases hk : k = hd.1
      · simp [hk]
      · simp only [alistLookup, hk, if_false] at h
        simp [ih h]

theorem binOp_buffers {k : CPUBackend.BinOpKind} {s : CPUState}
    {a b r : BufferHandle} {size : Nat} {s₂ : CPUState}
    (h : CPUBackend.binOp k s a b r size = some s₂) :
    ∃ rd, s₂ = ⟨alistInsert r.id rd s.buffers⟩ := by
  cases ha : alistLookup a.id s.buffers with
  | none => simp [CPUBackend.binOp, ha] at h
  | some ad =>
      cases hb : alistLookup b.id s.buffers with
      | none => simp [CPUBackend.binOp, ha, hb] at h
      | some bd =>
          cases hl : CPUBackend.opLoop k.f ad bd size with
          | none => simp [CPUBackend.binOp, ha, hb, hl] at h
          | some rd =>
              simp only [CPUBackend.binOp, ha, hb, hl, Option.bind_eq_bind,
                Option.some_bind, Option.some.injEq] at h
              exact ⟨rd, h.symm⟩

theorem memset_buffers {s : CPUState} {a b : BufferHandle} {size : Nat}
    {s₂ : CPUState} (h : CPUBackend.memset s a b size = some s₂) :
    ∃ rd, s₂ = ⟨alistInsert a.id rd s.buffers⟩ := by
  cases hb : alistLookup b.id s.buffers with
  | none => simp [CPUBackend.memset, hb] at h
  | some bd =>
      cases ha : alistLookup a.id s.buffers with
      | none => simp [CPUBackend.memset, hb, ha] at h
      | some ad =>
          by_cases hlen : ad.length = bd.length
          · simp only [CPUBackend.memset, hb, ha, hlen, Option.bind_eq_bind,
              Option.some_bind, if_true, Option.some.injEq] at h
            exact ⟨bd, h.symm⟩
          · simp [CPUBackend.memset, hb, ha, hlen] at h

/-- A successful `execStep` writes the host table only at the identity of the
order element being executed (given that `Memset` nodes target themselves and
that the handle map sends each identity to a handle carrying it). -/
theorem execStep_preserves {deps : DepsMap} {handles : List (Nat × BufferHandle)}
    {acc out : CPUState × List BEvent} {id : Nat}
    (hmemset : ∀ (k : Nat) (m : LazyBuffer), alistLookup k deps = some m →
      ∀ a b, m.operation = .memset a b → a = k)
    (hh : ∀ (k : Nat) (h : BufferHandle), alistLookup k handles = some h → h.id = k)
    (hstep : execStep deps handles acc id = some out) :
    ∀ j, j ≠ id → alistLookup j out.1.buffers = alistLookup j acc.1.buffers := by
  intro j hj
  cases hnode : alistLookup id deps with
  | none => simp [execStep, hnode] at hstep
  | some node =>
      cases hrh : alistLookup id handles with
      | none => simp [execStep, hnode, hrh] at hstep
      | some rh =>
          have hrhid : rh.id = id := hh id rh hrh
          have hbin : ∀ (k : CPUBackend.BinOpKind) (a b : Nat),
              node.operation ≠ .memset a b →
              (do
                let ah ← alistLookup a handles
                let bh ← alistLookup b handles
                let st ← CPUBackend.binOp k acc.1 ah bh rh node.size
                some (st, acc.2 ++ [.bop k a b id node.size])) = some out →
              alistLookup j out.1.buffers = alistLookup j acc.1.buffers := by
            intro k a b _ hdo
            cases hah : alistLookup a handles with
            | none => rw [hah] at hdo; simp at hdo
            | some ah =>
                cases hbh : alistLookup b handles with
                | none => rw [hah, hbh] at hdo; simp at hdo
                | some bh =>
                    rw [hah, hbh] at hdo
                    simp only [Option.bind_eq_bind, Option.some_bind] at hdo
                    cases hop : CPUBackend.binOp k acc.1 ah bh rh node.size with
                    | none => rw [hop] at hdo; simp at hdo
                    | some st =>
                        rw [hop] at hdo
                        simp only [Option.some_bind, Option.some.injEq] at hdo
                        obtain ⟨rd, hst⟩ := binOp_buffers hop
                        rw [← hdo, hst]
                        exact alistLookup_insert_of_ne _ _ (by rw [hrhid]; exact hj)
          cases hopn : node.operation with
          | creation c =>
              cases c with
              | random =>
                  simp only [execStep, hnode, hrh, hopn, Option.bind_eq_bind,
                    Option.some_bind, Option.some.injEq] at hstep
                  rw [← hstep]
                  exact alistLookup_insert_of_ne _ _ (by rw [hrhid]; exact hj)
              | rawData data =>
                  simp only [execStep, hnode, hrh, hopn, Option.bind_eq_bind,
                    Option.some_bind, Option.some.injEq] at hstep
                  rw [← hstep]
                  exact alistLookup_insert_of_ne _ _ (by rw [hrhid]; exact hj)
              | created =>
                  simp only [execStep, hnode, hrh, hopn, Option.bind_eq_bind,
                    Option.some_bind, Option.some.injEq] at hstep
                  rw [← hstep]
          | add a b =>
              apply hbin .add a b (by rw [hopn]; intro hcon; cases hcon)
              simpa only [execStep, hnode, hrh, hopn, Option.bind_eq_bind,
                Option.some_bind] using hstep
          | subtract a b =>
              apply hbin .subtract a b (by rw [hopn]; intro hcon; cases hcon)
              simpa only [execStep, hnode, hrh, hopn, Option.bind_eq_bind,
                Option.some_bind] using hstep
          | multiply a b =>
              apply hbin .multiply a b (by rw [hopn]; intro hcon; cases hcon)
              simpa only [execStep, hnode, hrh, hopn, Option.bind_eq_bind,
                Option.some_bind] using hstep
          | divide a b =>
              apply hbin .divide a b (by rw [hopn]; intro hcon; cases hcon)
              simpa only [execStep, hnode, hrh, hopn, Option.bind_eq_bind,
                Option.some_bind] using hstep
          | memset a b =>
              have ha : a = id := hmemset id node hnode a b hopn
              cases hah : alistLookup a handles with
              | none => simp [execStep, hnode, hrh, hopn, hah] at hstep
              | some ah =>
                  cases hbh : alistLookup b handles with
                  | none => simp [execStep, hnode, hrh, hopn, hah, hbh] at hstep
                  | some bh =>
                      cases hop : CPUBackend.memset acc.1 ah bh node.size with
                      | none => simp [execStep, hnode, hrh, hopn, hah, hbh, hop] at hstep
                      | some st =>
                          simp only [execStep, hnode, hrh, hopn, hah, hbh, hop,
                            Option.bind_eq_bind, Option.some_bind,
                            Option.some.injEq] at hstep
                          obtain ⟨rd, hst⟩ := memset_buffers hop
                          rw [← hstep, hst]
                          refine alistLookup_insert_of_ne _ _ ?_
                          rw [hh a ah hah, ha]
                          exact hj
          | clear a => simp [execStep, hnode, hrh, hopn] at hstep

/-- Executing the step of a `Creation(Random)` node uploads a zero vector of
the node's size at its identity and records the upload event. -/
theorem execStep_random {deps : DepsMap} {handles : List (Nat × BufferHandle)}
    {acc out : CPUState × List BEvent} {id : Nat} {node : LazyBuffer}
    (hnode : alistLookup id deps = some node)
    (hrand : node.operation = .creation .random)
    (hh : ∀ (k : Nat) (h : BufferHandle), alistLookup k handles = some h → h.id = k)
    (hstep : execStep deps handles acc id = some out) :
    alistLookup id out.1.buffers = some (List.replicate node.size (F32.finite 0)) ∧
    BEvent.upload id (List.replicate node.size (F32.finite 0)) ∈ out.2 := by
  cases hrh : alistLookup id handles with
  | none => simp [execStep, hnode, hrh] at hstep
  | some rh =>
      simp only [execStep, hnode, hrh, hrand, Option.bind_eq_bind, Option.some_bind,
        Option.some.injEq] at hstep
      rw [← hstep]
      constructor
      · rw [CPUBackend.to_device, hh id rh hrh]
        exact alistLookup_insert_self _ _ _
      · simp

/-- Every successful `execStep` only appends to the event trace. -/
theorem execStep_events {deps : DepsMap} {handles : List (Nat × BufferHandle)}
    {acc out : CPUState × List BEvent} {id : Nat}
    (hstep : execStep deps handles acc id = some out) :
    ∃ e, out.2 = acc.2 ++ e := by
  cases hnode : alistLookup id deps with
  | none => simp [execStep, hnode] at hstep
  | some node =>
      cases hrh : alistLookup id handles with
      | none => simp [execStep, hnode, hrh] at hstep
      | some rh =>
          have hbin : ∀ (k : CPUBackend.BinOpKind) (a b : Nat),
              (do
                let ah ← alistLookup a handles
                let bh ← alistLookup b handles
                let st ← CPUBackend.binOp k acc.1 ah bh rh node.size
                some (st, acc.2 ++ [.bop k a b id node.size])) = some out →
              ∃ e, out.2 = acc.2 ++ e := by
            intro k a b hdo
            cases hah : alistLookup a handles with
            | none => rw [hah] at hdo; simp at hdo
            | some ah =>
                cases hbh : alistLookup b handles with
                | none => rw [hah, hbh] at hdo; simp at hdo
                | some bh =>
                    rw [hah, hbh] at hdo
                    simp only [Option.bind_eq_bind, Option.some_bind] at hdo
                    cases hop : CPUBackend.binOp k acc.1 ah bh rh node.size with
                    | none => rw [hop] at hdo; simp at hdo
                    | some st =>
                        rw [hop] at hdo
                        simp only [Option.some_bind, Option.some.injEq] at hdo
                        exact ⟨_, by rw [← hdo]⟩
          cases hopn : node.operation with
          | creation c =>
              cases c with
              | random =>
                  simp only [execStep, hnode, hrh, hopn, Option.bind_eq_bind,
                    Option.some_bind, Option.some.injEq] at hstep
                  exact ⟨_, by rw [← hstep]⟩
              | rawData data =>
                  simp only [execStep, hnode, hrh, hopn, Option.bind_eq_bind,
                    Option.some_bind, Option.some.injEq] at hstep
                  exact ⟨_, by rw [← hstep]⟩
              | created =>
                  simp only [execStep, hnode, hrh, hopn, Option.bind_eq_bind,
                    Option.some_bind, Option.some.injEq] at hstep
                  exact ⟨[], by rw [← hstep]; simp⟩
          | add a b =>
              apply hbin .add a b
              simpa only [execStep, hnode, hrh, hopn, Option.bind_eq_bind,
                Option.some_bind] using hstep
          | subtract a b =>
              apply hbin .subtract a b
              simpa only [execStep, hnode, hrh, hopn, Option.bind_eq_bind,
                Option.some_bind] using hstep
          | multiply a b =>
              apply hbin .multiply a b
              simpa only [execStep, hnode, hrh, hopn, Option.bind_eq_bind,
                Option.some_bind] using hstep
          | divide a b =>
              apply hbin .divide a b
              simpa only [execStep, hnode, hrh, hopn, Option.bind_eq_bind,
                Option.some_bind] using hstep
          | memset a b =>
              cases hah : alistLookup a handles with
              | none => simp [execStep, hnode, hrh, hopn, hah] at hstep
              | some ah =>
                  cases hbh : alistLookup b handles with
                  | none => simp [execStep, hnode, hrh, hopn, hah, hbh] at hstep
                  | some bh =>
                      cases hop : CPUBackend.memset acc.1 ah bh node.size with
                      | none => simp [execStep, hnode, hrh, hopn, hah, hbh, hop] at hstep
                      | some st =>
                          simp only [execStep, hnode, hrh, hopn, hah, hbh, hop,
                            Option.bind_eq_bind, Option.some_bind,
                            Option.some.injEq] at hstep
                          exact ⟨_, by rw [← hstep]⟩
          | clear a => simp [execStep, hnode, hrh, hopn] at hstep

/-- Folding `execStep` over identities all different from `nid` neither
touches the table entry at `nid` nor drops events. -/
theorem execFold_preserves {deps : DepsMap} {handles : List (Nat × BufferHandle)}
    {nid : Nat}
    (hmemset : ∀ (k : Nat) (m : LazyBuffer), alistLookup k deps = some m →
      ∀ a b, m.operation = .memset a b → a = k)
    (hh : ∀ (k : Nat) (h : BufferHandle), alistLookup k handles = some h → h.id = k) :
    ∀ (l : List Nat) (acc out : CPUState × List BEvent),
      l.foldlM (execStep deps handles) acc = some out →
      (∀ k ∈ l, k ≠ nid) →
      alistLookup nid out.1.buffers = alistLookup nid acc.1.buffers ∧
      ∃ e, out.2 = acc.2 ++ e := by
  intro l
  induction l with
  | nil =>
      intro acc out hrun _
      simp only [List.foldlM_nil, Option.pure_def, Option.some.injEq] at hrun
      subst hrun
      exact ⟨rfl, [], by simp⟩
  | cons k rest ih =>
      intro acc out hrun hne
      simp only [List.foldlM_cons, Option.bind_eq_bind] at hrun
      cases hs : execStep deps handles acc k with
      | none => rw [hs] at hrun; simp at hrun
      | some mid =>
          rw [hs] at hrun
          simp only [Option.some_bind] at hrun
          obtain ⟨hpres, e₂, hev₂⟩ := ih mid out hrun (fun x hx => hne x (by simp [hx]))
          have hk : k ≠ nid := hne k (by simp)
          obtain ⟨e₁, hev₁⟩ := execStep_events hs
          refine ⟨?_, e₁ ++ e₂, by rw [hev₂, hev₁, List.append_assoc]⟩
          rw [hpres]
          exact execStep_preserves hmemset hh hs nid (fun heq => hk heq.symm)

/-- `allocPass` produces a handle map sending every identity to a handle
carrying it. -/
theorem allocPass_handles {deps : DepsMap} :
    ∀ (order : List Nat) (hs : List (Nat × BufferHandle)) (s : CPUState)
      (ev : List BEvent) (out : List (Nat × BufferHandle) × CPUState × List BEvent),
      order.foldlM
        (fun (acc : List (Nat × BufferHandle) × CPUState × List BEvent) id => do
          let node ← alistLookup id deps
          let (h, st) := CPUBackend.allocate_buffer acc.2.1 id node.size
          some (alistInsert id h acc.1, st, acc.2.2 ++ [.alloc id node.size]))
        (hs, s, ev) = some out →
      (∀ (k : Nat) (h : BufferHandle), alistLookup k hs = some h → h.id = k) →
      ∀ (k : Nat) (h : BufferHandle), alistLookup k out.1 = some h → h.id = k := by
  intro order
  induction order with
  | nil =>
      intro hs s ev out hrun hok
      simp only [List.foldlM_nil, Option.pure_def, Option.some.injEq] at hrun
      subst hrun
      exact hok
  | cons id rest ih =>
      intro hs s ev out hrun hok
      simp only [List.foldlM_cons, Option.bind_eq_bind] at hrun
      cases hnode : alistLookup id deps with
      | none => rw [hnode] at hrun; simp at hrun
      | some node =>
          rw [hnode] at hrun
          simp only [Option.some_bind] at hrun
          refine ih _ _ _ out hrun ?_
          intro k h hlk
          by_cases hk : k = id
          · subst hk
            rw [alistLookup_insert_self] at hlk
            cases hlk
            cases halloc : alistLookup k s.buffers with
            | none => simp [CPUBackend.allocate_buffer, halloc]
            | some buf => simp [CPUBackend.allocate_buffer, halloc]
          · rw [alistLookup_insert_of_ne _ _ hk] at hlk
            exact hok k h hlk

/-- C10: for every node of the dependency map whose operation is
`Creation(Random)` (with `Memset` nodes targeting themselves, as
`from_tensor_op` guarantees), a successful `realize_impl` uploads a
zero-filled vector of the node's size to the node's device buffer, and after
the pass the buffer at that identity holds exactly those zeros — not random
values. -/
theorem realize_random_uploads_zeros (deps : DepsMap) (s : CPUState)
    (nid : Nat) (node : LazyBuffer)
    (handles : List (Nat × BufferHandle)) (s₂ : CPUState) (ev : List BEvent)
    (hnode : alistLookup nid deps = some node)
    (hrand : node.operation = .creation .random)
    (hmemset : ∀ (k : Nat) (m : LazyBuffer), alistLookup k deps = some m →
      ∀ a b, m.operation = .memset a b → a = k)
    (hrun : realizeImpl deps s = some (handles, s₂, ev)) :
    alistLookup nid s₂.buffers = some (List.replicate node.size (F32.finite 0)) ∧
    BEvent.upload nid (List.replicate node.size (F32.finite 0)) ∈ ev := by
  cases hord : topologicalSort deps with
  | none => simp [realizeImpl, hord] at hrun
  | some order =>
      cases halloc : allocPass deps order s with
      | none => simp [realizeImpl, hord, halloc] at hrun
      | some mid =>
          simp only [realizeImpl, hord, halloc, Option.bind_eq_bind,
            Option.some_bind] at hrun
          cases hexec : order.foldlM (execStep deps mid.1) mid.2 with
          | none => rw [hexec] at hrun; simp at hrun
          | some fin =>
              rw [hexec] at hrun
              simp only [Option.some_bind, Option.some.injEq, Prod.mk.injEq] at hrun
              obtain ⟨hhandles, hs₂, hev⟩ := hrun
              have hh : ∀ (k : Nat) (h : BufferHandle),
                  alistLookup k mid.1 = some h → h.id = k := by
                have := allocPass_handles order [] s [] mid
                  (by simpa [allocPass] using halloc)
                  (by intro k h hlk; simp [alistLookup] at hlk)
                exact this
              obtain ⟨hnd, hkeys, _⟩ := topoSort_spec hord
              have hnidmem : nid ∈ order := hkeys nid (alistLookup_some_mem hnode)
              obtain ⟨pre, post, hsplit⟩ := List.append_of_mem hnidmem
              have hndPost : ∀ k ∈ post, k ≠ nid := by
                intro k hk heq
                subst heq
                rw [hsplit] at hnd
                rcases List.nodup_append.mp hnd with ⟨_, hnd₂, _⟩
                exact (List.nodup_cons.mp hnd₂).1 hk
              rw [hsplit] at hexec
              rw [List.foldlM_append] at hexec
              cases hpre : (pre.foldlM (execStep deps mid.1) mid.2) with
              | none => rw [hpre] at hexec; simp at hexec
              | some mid₂ =>
                  rw [hpre] at hexec
                  simp only [Option.bind_eq_bind, Option.some_bind,
                    List.foldlM_cons] at hexec
                  cases hstep : execStep deps mid.1 mid₂ nid with
                  | none => rw [hstep] at hexec; simp at hexec
                  | some mid₃ =>
                      rw [hstep] at hexec
                      simp only [Option.some_bind] at hexec
                      obtain ⟨hzero, hupl⟩ := execStep_random hnode hrand hh hstep
                      obtain ⟨hfinal, e₃, hev₃⟩ :=
                        execFold_preserves hmemset hh post mid₃ fin hexec hndPost
                      constructor
                      · rw [← hs₂, hfinal, hzero]
                      · rw [← hev, hev₃]
                        exact List.mem_append.mpr (Or.inl hupl)

/-- A one-node dependency map holding a `Creation(Random)` node of size 2. -/
def c10Deps : DepsMap := [(0, ⟨0, .scratch, 2, .creation .random, none⟩)]

/-- The result of realizing `c10Deps` on an empty host backend. -/
def c10Out : List (Nat × BufferHandle) × CPUState × List BEvent :=
  (realizeImpl c10Deps ⟨[]⟩).getD ([], ⟨[]⟩, [])

/-- C10, witness: realizing the `Random` node of `c10Deps` leaves `[0, 0]` in
its buffer and the trace contains the zero upload. -/
theorem realize_random_uploads_zeros_witness :
    alistLookup 0 c10Out.2.1.buffers = some (List.replicate 2 (F32.finite 0)) ∧
    BEvent.upload 0 (List.replicate 2 (F32.finite 0)) ∈ c10Out.2.2 :=
  realize_random_uploads_zeros c10Deps ⟨[]⟩ 0 ⟨0, .scratch, 2, .creation .random, none⟩
    c10Out.1 c10Out.2.1 c10Out.2.2 (by decide) (by decide)
    (by
      intro k m hk a b hop
      by_cases h0 : k = 0
      · subst h0
        have hm : m = ⟨0, .scratch, 2, .creation .random, none⟩ := by
          simpa [c10Deps, alistLookup] using hk.symm
        rw [hm] at hop
        cases hop
      · simp [c10Deps, alistLookup, h0] at hk)
    (by decide)

/-! ## C2: repeated realize -/

theorem alistLookup_mem {α β : Type} [DecidableEq α] {k : α} {v : β} :
    ∀ {l : List (α × β)}, alistLookup k l = some v → (k, v) ∈ l := by
  intro l
  induction l with
  | nil => intro h; simp [alistLookup] at h
  | cons hd tl ih =>
      intro h
      by_cases hk : k = hd.1
      · simp only [alistLookup, hk, if_pos rfl] at h
        subst hk
        cases h
        exact List.mem_cons.mpr (Or.inl (by
          cases hd
          rfl))
      · simp only [alistLookup, hk, if_false] at h
        exact List.mem_cons_of_mem _ (ih h)

/-- Erase the creation kind of an operation; two operations with the same
skeleton drive every scheduler decision identically. -/
def opSkeleton : LazyOp → LazyOp
  | .creation _ => .creation .created
  | op => op

theorem rewriteOp_skeleton (op : LazyOp) : opSkeleton (rewriteOp op) = opSkeleton op := by
  cases op with
  | creation c => cases c <;> rfl
  | _ => rfl

theorem rewriteOp_creation {op : LazyOp} {c : CreationType}
    (h : rewriteOp op = .creation c) : c = .created := by
  cases op with
  | creation c₂ => cases c₂ <;> simp [rewriteOp] at h <;> simp [h.symm]
  | _ => simp [rewriteOp] at h

/-- Skeleton equality of registry nodes: same size, same operation up to the
creation kind. -/
def nodeSkelEq (b b₂ : LazyBuffer) : Prop :=
  b.size = b₂.size ∧ opSkeleton b.operation = opSkeleton b₂.operation

/-- Pointwise skeleton relation between dependency-map entries. -/
def depEntryRel (p p₂ : Nat × LazyBuffer) : Prop :=
  p.1 = p₂.1 ∧ nodeSkelEq p.2 p₂.2

/-- Two registries with the same length whose nodes are pairwise
skeleton-equal. -/
def skelEq (reg reg₂ : List LazyBuffer) : Prop :=
  reg.length = reg₂.length ∧
  ∀ (i : Nat) (b : LazyBuffer), reg[i]? = some b →
    ∃ b₂, reg₂[i]? = some b₂ ∧ nodeSkelEq b b₂

theorem visitOperands_skel {b b₂ : LazyBuffer}
    (h : opSkeleton b.operation = opSkeleton b₂.operation) :
    visitOperands b = visitOperands b₂ := by
  cases hb : b.operation <;> cases hb₂ : b₂.operation <;>
    simp_all [opSkeleton, visitOperands]

theorem alistInsert_rel {k : Nat} {n n₂ : LazyBuffer} (hn : nodeSkelEq n n₂) :
    ∀ {ds ds₂ : DepsMap}, List.Forall₂ depEntryRel ds ds₂ →
      List.Forall₂ depEntryRel (alistInsert k n ds) (alistInsert k n₂ ds₂) := by
  intro ds ds₂ hrel
  induction hrel with
  | nil => exact List.Forall₂.cons ⟨rfl, hn⟩ List.Forall₂.nil
  | cons hhd htl ih =>
      rename_i hd hd₂ tl tl₂
      by_cases hk : k = hd.1
      · have hk₂ : k = hd₂.1 := by rw [hk, hhd.1]
        simp only [alistInsert, if_pos hk, if_pos hk₂]
        exact List.Forall₂.cons ⟨rfl, hn⟩ htl
      · have hk₂ : k ≠ hd₂.1 := by rw [← hhd.1]; exact hk
        simp only [alistInsert, if_neg hk, if_neg hk₂]
        exact List.Forall₂.cons hhd ih

theorem alistLookup_rel {k : Nat} :
    ∀ {ds ds₂ : DepsMap}, List.Forall₂ depEntryRel ds ds₂ →
      (alistLookup k ds = none → alistLookup k ds₂ = none) ∧
      (∀ n, alistLookup k ds = some n →
        ∃ n₂, alistLookup k ds₂ = some n₂ ∧ nodeSkelEq n n₂) := by
  intro ds ds₂ hrel
  induction hrel with
  | nil => exact ⟨fun _ => rfl, fun n h => by simp [alistLookup] at h⟩
  | cons hhd htl ih =>
      rename_i hd hd₂ tl tl₂
      by_cases hk : k = hd.1
      · have hk₂ : k = hd₂.1 := by rw [hk, hhd.1]
        constructor
        · intro h
          simp [alistLookup, if_pos hk] at h
        · intro n h
          simp only [alistLookup, if_pos hk, if_pos hk₂, Option.some.injEq] at h ⊢
          exact ⟨hd₂.2, rfl, h ▸ hhd.2⟩
      · have hk₂ : k ≠ hd₂.1 := by rw [← hhd.1]; exact hk
        constructor
        · intro h
          simp only [alistLookup, if_neg hk, if_neg hk₂] at h ⊢
          exact ih.1 h
        · intro n h
          simp only [alistLookup, if_neg hk, if_neg hk₂] at h ⊢
          exact ih.2 n h

theorem forall₂_keys {ds ds₂ : DepsMap} (h : List.Forall₂ depEntryRel ds ds₂) :
    ds.map (fun p => p.1) = ds₂.map (fun p => p.1) := by
  induction h with
  | nil => rfl
  | cons hhd htl ih => simp [hhd.1, ih]

/-- Branch classifier of `collect_recursive`: `none` for a leaf
(`Creation`/`Clear`), `some (a, b)` for the five two-operand variants. -/
def collectClass : LazyOp → Option (Nat × Nat)
  | .creation _ => none
  | .clear _ => none
  | .add a b => some (a, b)
  | .subtract a b => some (a, b)
  | .multiply a b => some (a, b)
  | .divide a b => some (a, b)
  | .memset a b => some (a, b)

theorem collectClass_skel {op op₂ : LazyOp}
    (h : opSkeleton op = opSkeleton op₂) : collectClass op = collectClass op₂ := by
  cases op <;> cases op₂ <;> simp_all [opSkeleton, collectClass]

/-- The body of `collectRec` at positive fuel, expressed through the
classifier value. -/
def collectStep (reg : List LazyBuffer) (fuel cur : Nat) (node : LazyBuffer)
    (ds : DepsMap) (visited : List Nat) :
    Option (Nat × Nat) → Option (DepsMap × List Nat)
  | none => some (alistInsert cur node ds, cur :: visited)
  | some (a, b) => do
      let (ds₁, v₁) ← collectRec reg fuel a ds (cur :: visited)
      let (ds₂, v₂) ← collectRec reg fuel b ds₁ v₁
      some (alistInsert cur node ds₂, v₂)

theorem collectRec_succ (reg : List LazyBuffer) (fuel cur : Nat) (ds : DepsMap)
    (visited : List Nat) (hv : cur ∉ visited) (node : LazyBuffer)
    (hg : reg[cur]? = some node) :
    collectRec reg (fuel + 1) cur ds visited =
      collectStep reg fuel cur node ds visited (collectClass node.operation) := by
  cases hop : node.operation <;>
    simp [collectRec, collectStep, hv, hg, hop, collectClass]

/-- `collect_recursive` run on two skeleton-equal registries from the same
identity and visited set succeeds in lockstep, with pointwise-related maps
and the same visited sets. -/
theorem collectRec_sim {reg reg₂ : List LazyBuffer} (hskel : skelEq reg reg₂) :
    ∀ (fuel cur : Nat) (ds ds₂ : DepsMap) (visited : List Nat)
      (out : DepsMap × List Nat),
      List.Forall₂ depEntryRel ds ds₂ →
      collectRec reg fuel cur ds visited = some out →
      ∃ out₂, collectRec reg₂ fuel cur ds₂ visited = some out₂ ∧
        List.Forall₂ depEntryRel out.1 out₂.1 ∧ out.2 = out₂.2 := by
  intro fuel
  induction fuel with
  | zero =>
      intro cur ds ds₂ visited out _ hrun
      simp [collectRec] at hrun
  | succ fuel ih =>
      intro cur ds ds₂ visited out hrel hrun
      by_cases hv : cur ∈ visited
      · simp only [collectRec, hv, if_pos, Option.some.injEq] at hrun
        refine ⟨(ds₂, visited), by simp [collectRec, hv], ?_, ?_⟩
        · rw [← hrun]; exact hrel
        · rw [← hrun]
      · cases hg : reg[cur]? with
        | none => simp [collectRec, hv, hg] at hrun
        | some node =>
            obtain ⟨node₂, hg₂, hsz, hsk⟩ := hskel.2 cur node hg
            rw [collectRec_succ reg fuel cur ds visited hv node hg] at hrun
            rw [collectRec_succ reg₂ fuel cur ds₂ visited hv node₂ hg₂]
            rw [← collectClass_skel hsk]
            cases hc : collectClass node.operation with
            | none =>
                rw [hc] at hrun
                simp only [collectStep, Option.some.injEq] at hrun
                refine ⟨(alistInsert cur node₂ ds₂, cur :: visited),
                  by simp [collectStep], ?_, ?_⟩
                · rw [← hrun]
                  exact alistInsert_rel ⟨hsz, hsk⟩ hrel
                · rw [← hrun]
            | some ab =>
                obtain ⟨a, b⟩ := ab
                rw [hc] at hrun
                simp only [collectStep] at hrun ⊢
                cases hr₁ : collectRec reg fuel a ds (cur :: visited) with
                | none => rw [hr₁] at hrun; simp at hrun
                | some st₁ =>
                    rw [hr₁] at hrun
                    obtain ⟨st₁₂, hr₁₂, hrel₁, hvis₁⟩ :=
                      ih a ds ds₂ (cur :: visited) st₁ hrel hr₁
                    simp only [Option.bind_eq_bind, Option.some_bind] at hrun
                    obtain ⟨c₁, c₂⟩ := st₁
                    cases hr₂ : collectRec reg fuel b c₁ c₂ with
                    | none => rw [hr₂] at hrun; simp at hrun
                    | some st₂ =>
                        rw [hr₂] at hrun
                        obtain ⟨st₁₂a, st₁₂b⟩ := st₁₂
                        simp only at hvis₁
                        obtain ⟨st₂₂, hr₂₂, hrel₂, hvis₂⟩ :=
                          ih b c₁ st₁₂a c₂ st₂ hrel₁ hr₂
                        rw [hvis₁] at hr₂₂
                        obtain ⟨e₁, e₂⟩ := st₂
                        simp only [Option.some_bind, Option.some.injEq] at hrun
                        refine ⟨(alistInsert cur node₂ st₂₂.1, st₂₂.2), ?_, ?_, ?_⟩
                        · rw [hr₁₂]
                          simp only [Option.bind_eq_bind, Option.some_bind]
                          rw [hr₂₂]
                          simp only [Option.some_bind]
                        · rw [← hrun]
                          exact alistInsert_rel ⟨hsz, hsk⟩ hrel₂
                        · rw [← hrun]
                          simp only
                          exact hvis₂

/-- `visit` of the topological sort behaves identically on pointwise
skeleton-related dependency maps. -/
theorem topoVisit_sim {ds ds₂ : DepsMap} (hrel : List.Forall₂ depEntryRel ds ds₂) :
    ∀ (fuel nodeId : Nat) (temp perm result : List Nat),
      topoVisit ds fuel nodeId temp perm result =
        topoVisit ds₂ fuel nodeId temp perm result := by
  intro fuel
  induction fuel with
  | zero => intro nodeId temp perm result; rfl
  | succ fuel ih =>
      intro nodeId temp perm result
      by_cases ht : nodeId ∈ temp
      · simp [topoVisit, ht]
      by_cases hp : nodeId ∈ perm
      · simp [topoVisit, ht, hp]
      cases hl : alistLookup nodeId ds with
      | none =>
          have hl₂ : alistLookup nodeId ds₂ = none := (alistLookup_rel hrel).1 hl
          simp [topoVisit, ht, hp, hl, hl₂]
      | some node =>
          obtain ⟨node₂, hl₂, _, hsk⟩ := (alistLookup_rel hrel).2 node hl
          have hops : visitOperands node = visitOperands node₂ := visitOperands_skel hsk
          simp only [topoVisit, ht, hp, hl, hl₂, if_false]
          rw [← hops]
          cases visitOperands node with
          | nil => rfl
          | cons o₁ rest =>
              cases rest with
              | nil => simp only [ih]
              | cons o₂ rest₂ =>
                  cases rest₂ with
                  | nil => simp only [ih]
                  | cons o₃ rest₃ => rfl

/-- The topological sort behaves identically on pointwise skeleton-related
dependency maps. -/
theorem topologicalSort_sim {ds ds₂ : DepsMap}
    (hrel : List.Forall₂ depEntryRel ds ds₂) :
    topologicalSort ds = topologicalSort ds₂ := by
  have hkeys := forall₂_keys hrel
  have hlen : ds.length = ds₂.length := List.Forall₂.length_eq hrel
  have hfold : ∀ (F : Nat) (keys : List Nat) (st : List Nat × List Nat × List Nat),
      keys.foldlM
        (fun (st : List Nat × List Nat × List Nat) k =>
          if k ∈ st.2.1 then some st
          else topoVisit ds F k st.1 st.2.1 st.2.2) st =
      keys.foldlM
        (fun (st : List Nat × List Nat × List Nat) k =>
          if k ∈ st.2.1 then some st
          else topoVisit ds₂ F k st.1 st.2.1 st.2.2) st := by
    intro F keys
    induction keys with
    | nil => intro st; rfl
    | cons k rest ihk =>
        intro st
        simp only [List.foldlM_cons]
        by_cases hk : k ∈ st.2.1
        · simp only [hk, if_true]
          exact bind_congr (fun st₂ => ihk st₂)
        · simp only [hk, if_false]
          rw [topoVisit_sim hrel]
          exact bind_congr (fun st₂ => ihk st₂)
  rw [topologicalSort, topologicalSort, hkeys, ← hlen, hfold]

theorem countUploads_append (l l₂ : List BEvent) :
    countUploads (l ++ l₂) = countUploads l + countUploads l₂ := by
  simp [countUploads, List.filter_append]

theorem alistInsert_mem {α β : Type} [DecidableEq α] {k : α} {v : β}
    {p : α × β} :
    ∀ {l : List (α × β)}, p ∈ alistInsert k v l → p = (k, v) ∨ p ∈ l := by
  intro l
  induction l with
  | nil => intro h; simpa [alistInsert] using h
  | cons hd tl ih =>
      intro h
      by_cases hk : k = hd.1
      · simp only [alistInsert, if_pos hk] at h
        rcases List.mem_cons.mp h with heq | hmem
        · exact Or.inl heq
        · exact Or.inr (List.mem_cons_of_mem _ hmem)
      · simp only [alistInsert, if_neg hk] at h
        rcases List.mem_cons.mp h with heq | hmem
        · exact Or.inr (List.mem_cons.mpr (Or.inl heq))
        · rcases ih hmem with h₂ | h₂
          · exact Or.inl h₂
          · exact Or.inr (List.mem_cons_of_mem _ h₂)

/-- Every entry of a map produced by `collect_recursive` is either inherited
from the input map or is a registry lookup. -/
theorem collectRec_entries {reg : List LazyBuffer} :
    ∀ (fuel cur : Nat) (ds : DepsMap) (visited : List Nat)
      (out : DepsMap × List Nat),
      collectRec reg fuel cur ds visited = some out →
      ∀ p ∈ out.1, p ∈ ds ∨ reg[p.1]? = some p.2 := by
  intro fuel
  induction fuel with
  | zero =>
      intro cur ds visited out hrun
      simp [collectRec] at hrun
  | succ fuel ih =>
      intro cur ds visited out hrun p hp
      by_cases hv : cur ∈ visited
      · simp only [collectRec, hv, if_pos, Option.some.injEq] at hrun
        rw [← hrun] at hp
        exact Or.inl hp
      · cases hg : reg[cur]? with
        | none => simp [collectRec, hv, hg] at hrun
        | some node =>
            rw [collectRec_succ reg fuel cur ds visited hv node hg] at hrun
            cases hc : collectClass node.operation with
            | none =>
                rw [hc] at hrun
                simp only [collectStep, Option.some.injEq] at hrun
                rw [← hrun] at hp
                rcases alistInsert_mem hp with heq | hmem
                · right
                  rw [heq]
                  exact hg
                · exact Or.inl hmem
            | some ab =>
                obtain ⟨a, b⟩ := ab
                rw [hc] at hrun
                simp only [collectStep] at hrun
                cases hr₁ : collectRec reg fuel a ds (cur :: visited) with
                | none => rw [hr₁] at hrun; simp at hrun
                | some st₁ =>
                    rw [hr₁] at hrun
                    simp only [Option.bind_eq_bind, Option.some_bind] at hrun
                    obtain ⟨c₁, c₂⟩ := st₁
                    cases hr₂ : collectRec reg fuel b c₁ c₂ with
                    | none => rw [hr₂] at hrun; simp at hrun
                    | some st₂ =>
                        rw [hr₂] at hrun
                        obtain ⟨e₁, e₂⟩ := st₂
                        simp only [Option.some_bind, Option.some.injEq] at hrun
                        rw [← hrun] at hp
                        rcases alistInsert_mem hp with heq | hmem
                        · right
                          rw [heq]
                          exact hg
                        · rcases ih b c₁ c₂ (e₁, e₂) hr₂ p hmem with h₂ | h₂
                          · exact ih a ds (cur :: visited) (c₁, c₂) hr₁ p h₂
                          · exact Or.inr h₂

theorem alistInsert_keys {α β : Type} [DecidableEq α] {x k : α} (v : β) :
    ∀ {l : List (α × β)}, x ∈ (alistInsert k v l).map (fun p => p.1) →
      x = k ∨ x ∈ l.map (fun p => p.1) := by
  intro l
  induction l with
  | nil => intro h; simpa [alistInsert] using h
  | cons hd tl ih =>
      intro h
      by_cases hk : k = hd.1
      · simp only [alistInsert, if_pos hk, List.map_cons, List.mem_cons] at h
        rcases h with heq | hmem
        · exact Or.inl heq
        · exact Or.inr (by simp [hmem])
      · simp only [alistInsert, if_neg hk, List.map_cons, List.mem_cons] at h
        rcases h with heq | hmem
        · exact Or.inr (by simp [heq])
        · rcases ih hmem with h₂ | h₂
          · exact Or.inl h₂
          · exact Or.inr (by simp [h₂])

theorem alistInsert_keys_nodup {α β : Type} [DecidableEq α] (k : α) (v : β) :
    ∀ {l : List (α × β)}, (l.map (fun p => p.1)).Nodup →
      ((alistInsert k v l).map (fun p => p.1)).Nodup := by
  intro l
  induction l with
  | nil => intro _; simp [alistInsert]
  | cons hd tl ih =>
      intro hnd
      simp only [List.map_cons, List.nodup_cons] at hnd
      by_cases hk : k = hd.1
      · simp only [alistInsert, if_pos hk, List.map_cons, List.nodup_cons]
        exact ⟨by rw [hk] at *; exact hnd.1, hnd.2⟩
      · simp only [alistInsert, if_neg hk, List.map_cons, List.nodup_cons]
        refine ⟨fun hcon => ?_, ih hnd.2⟩
        rcases alistInsert_keys v hcon with heq | hmem
        · exact hk heq.symm
        · exact hnd.1 hmem

theorem alistInsert_isSome {α β : Type} [DecidableEq α] {j k : α} (v : β)
    (l : List (α × β)) (h : (alistLookup j l).isSome) :
    (alistLookup j (alistInsert k v l)).isSome := by
  by_cases hk : j = k
  · subst hk
    rw [alistLookup_insert_self]
    rfl
  · rw [alistLookup_insert_of_ne _ _ hk]
    exact h

/-- The allocation pass: the handle-map keys stay duplicate-free, every
identity of the order (and every previously present key) ends up in the map,
and no upload events are emitted. -/
theorem allocPass_spec {deps : DepsMap} :
    ∀ (order : List Nat) (hs : List (Nat × BufferHandle)) (s : CPUState)
      (ev : List BEvent) (out : List (Nat × BufferHandle) × CPUState × List BEvent),
      order.foldlM
        (fun (acc : List (Nat × BufferHandle) × CPUState × List BEvent) id => do
          let node ← alistLookup id deps
          let (h, st) := CPUBackend.allocate_buffer acc.2.1 id node.size
          some (alistInsert id h acc.1, st, acc.2.2 ++ [.alloc id node.size]))
        (hs, s, ev) = some out →
      (hs.map (fun p => p.1)).Nodup →
      (out.1.map (fun p => p.1)).Nodup ∧
      (∀ k ∈ order, (alistLookup k out.1).isSome) ∧
      (∀ k, (alistLookup k hs).isSome → (alistLookup k out.1).isSome) ∧
      countUploads out.2.2 = countUploads ev := by
  intro order
  induction order with
  | nil =>
      intro hs s ev out hrun hnd
      simp only [List.foldlM_nil, Option.pure_def, Option.some.injEq] at hrun
      subst hrun
      exact ⟨hnd, by simp, fun k hk => hk, rfl⟩
  | cons id rest ih =>
      intro hs s ev out hrun hnd
      simp only [List.foldlM_cons, Option.bind_eq_bind] at hrun
      cases hnode : alistLookup id deps with
      | none => rw [hnode] at hrun; simp at hrun
      | some node =>
          rw [hnode] at hrun
          simp only [Option.some_bind] at hrun
          obtain ⟨hnd₂, hord, hpres, hupl⟩ :=
            ih _ _ _ out hrun (alistInsert_keys_nodup _ _ hnd)
          refine ⟨hnd₂, ?_, ?_, ?_⟩
          · intro k hk
            rcases List.mem_cons.mp hk with heq | hmem
            · subst heq
              exact hpres k (by rw [alistLookup_insert_self]; rfl)
            · exact hord k hmem
          · intro k hk
            exact hpres k (alistInsert_isSome _ _ hk)
          · rw [hupl, countUploads_append]
            simp [countUploads]

/-- The commit loop rewrites exactly the slots whose identity appears in the
handle map, leaving the rest untouched. -/
theorem commitHandles_spec :
    ∀ (hs : List (Nat × BufferHandle)) (reg reg₁ : List LazyBuffer),
      commitHandles hs reg = some reg₁ →
      (hs.map (fun p => p.1)).Nodup →
      reg₁.length = reg.length ∧
      (∀ k, k ∉ hs.map (fun p => p.1) → reg₁[k]? = reg[k]?) ∧
      (∀ k h, (k, h) ∈ hs → ∃ b, reg[k]? = some b ∧
        reg₁[k]? = some { b with deviceBuffer := some h, operation := rewriteOp b.operation }) := by
  intro hs
  induction hs with
  | nil =>
      intro reg reg₁ hrun _
      simp only [commitHandles, List.foldlM_nil, Option.pure_def,
        Option.some.injEq] at hrun
      subst hrun
      exact ⟨rfl, fun k _ => rfl, fun k h hmem => by simp at hmem⟩
  | cons p rest ih =>
      intro reg reg₁ hrun hnd
      simp only [commitHandles, List.foldlM_cons, Option.bind_eq_bind] at hrun
      cases hb : reg[p.1]? with
      | none => rw [hb] at hrun; simp at hrun
      | some b =>
          rw [hb] at hrun
          simp only [Option.some_bind] at hrun
          simp only [List.map_cons, List.nodup_cons] at hnd
          have hlt : p.1 < reg.length := (List.getElem?_eq_some_iff.mp hb).1
          obtain ⟨hlen, hout, hin⟩ := ih _ reg₁ hrun hnd.2
          refine ⟨by rw [hlen, List.length_set], ?_, ?_⟩
          · intro k hk
            simp only [List.map_cons, List.mem_cons, not_or] at hk
            rw [hout k hk.2]
            exact List.getElem?_set_ne (fun heq => hk.1 heq.symm)
          · intro k h hmem
            rcases List.mem_cons.mp hmem with heq | hmem₂
            · have hk : k = p.1 := by rw [← heq]
              have hh : h = p.2 := by rw [← heq]
              subst hk
              subst hh
              refine ⟨b, hb, ?_⟩
              rw [hout p.1 hnd.1]
              exact List.getElem?_set_self hlt
            · have hkne : k ≠ p.1 := by
                intro heq
                apply hnd.1
                rw [← heq]
                exact List.mem_map.mpr ⟨(k, h), hmem₂, rfl⟩
              obtain ⟨b₂, hb₂, hreg₁⟩ := hin k h hmem₂
              rw [List.getElem?_set_ne (fun heq => hkne heq.symm)] at hb₂
              exact ⟨b₂, hb₂, hreg₁⟩

/-- A step on a dependency map whose creation nodes are all `Created` emits
no upload event. -/
theorem execStep_no_upload {deps : DepsMap} {handles : List (Nat × BufferHandle)}
    {acc out : CPUState × List BEvent} {id : Nat}
    (hcreated : ∀ (k : Nat) (n : LazyBuffer), alistLookup k deps = some n →
      ∀ c, n.operation = .creation c → c = .created)
    (hstep : execStep deps handles acc id = some out) :
    countUploads out.2 = countUploads acc.2 := by
  obtain ⟨e, he⟩ := execStep_events hstep
  rw [he, countUploads_append]
  cases hnode : alistLookup id deps with
  | none => simp [execStep, hnode] at hstep
  | some node =>
      cases hrh : alistLookup id handles with
      | none => simp [execStep, hnode, hrh] at hstep
      | some rh =>
          have hbin : ∀ (k : CPUBackend.BinOpKind) (a b : Nat),
              (do
                let ah ← alistLookup a handles
                let bh ← alistLookup b handles
                let st ← CPUBackend.binOp k acc.1 ah bh rh node.size
                some (st, acc.2 ++ [.bop k a b id node.size])) = some out →
              countUploads out.2 = countUploads acc.2 := by
            intro k a b hdo
            cases hah : alistLookup a handles with
            | none => rw [hah] at hdo; simp at hdo
            | some ah =>
                cases hbh : alistLookup b handles with
                | none => rw [hah, hbh] at hdo; simp at hdo
                | some bh =>
                    rw [hah, hbh] at hdo
                    simp only [Option.bind_eq_bind, Option.some_bind] at hdo
                    cases hop : CPUBackend.binOp k acc.1 ah bh rh node.size with
                    | none => rw [hop] at hdo; simp at hdo
                    | some st =>
                        rw [hop] at hdo
                        simp only [Option.some_bind, Option.some.injEq] at hdo
                        rw [← hdo]
                        simp [countUploads]
          cases hopn : node.operation with
          | creation c =>
              have hc : c = .created := hcreated id node hnode c hopn
              subst hc
              simp only [execStep, hnode, hrh, hopn, Option.bind_eq_bind,
                Option.some_bind, Option.some.injEq] at hstep
              rw [← hstep] at he
              have he₂ : e = [] := by
                have hlen₂ := congrArg List.length he
                rw [List.length_append] at hlen₂
                have hzero : e.length = 0 := by omega
                exact List.eq_nil_of_length_eq_zero hzero
              rw [he₂]
              simp [countUploads]
          | add a b =>
              have := hbin .add a b (by
                simpa only [execStep, hnode, hrh, hopn, Option.bind_eq_bind,
                  Option.some_bind] using hstep)
              rw [he, countUploads_append] at this
              omega
          | subtract a b =>
              have := hbin .subtract a b (by
                simpa only [execStep, hnode, hrh, hopn, Option.bind_eq_bind,
                  Option.some_bind] using hstep)
              rw [he, countUploads_append] at this
              omega
          | multiply a b =>
              have := hbin .multiply a b (by
                simpa only [execStep, hnode, hrh, hopn, Option.bind_eq_bind,
                  Option.some_bind] using hstep)
              rw [he, countUploads_append] at this
              omega
          | divide a b =>
              have := hbin .divide a b (by
                simpa only [execStep, hnode, hrh, hopn, Option.bind_eq_bind,
                  Option.some_bind] using hstep)
              rw [he, countUploads_append] at this
              omega
          | memset a b =>
              cases hah : alistLookup a handles with
              | none => simp [execStep, hnode, hrh, hopn, hah] at hstep
              | some ah =>
                  cases hbh : alistLookup b handles with
                  | none => simp [execStep, hnode, hrh, hopn, hah, hbh] at hstep
                  | some bh =>
                      cases hop : CPUBackend.memset acc.1 ah bh node.size with
                      | none =>
                          simp [execStep, hnode, hrh, hopn, hah, hbh, hop] at hstep
                      | some st =>
                          simp only [execStep, hnode, hrh, hopn, hah, hbh, hop,
                            Option.bind_eq_bind, Option.some_bind,
                            Option.some.injEq] at hstep
                          rw [← hstep] at he
                          have he₂ : countUploads e = 0 := by
                            have h₃ := he
                            rw [List.append_cancel_left_eq] at h₃
                            rw [← h₃]
                            simp [countUploads]
                          omega
          | clear a => simp [execStep, hnode, hrh, hopn] at hstep

/-- Folding `execStep` over a created-only dependency map emits no upload
events. -/
theorem execFold_no_uploads {deps : DepsMap} {handles : List (Nat × BufferHandle)}
    (hcreated : ∀ (k : Nat) (n : LazyBuffer), alistLookup k deps = some n →
      ∀ c, n.operation = .creation c → c = .created) :
    ∀ (l : List Nat) (acc out : CPUState × List BEvent),
      l.foldlM (execStep deps handles) acc = some out →
      countUploads out.2 = countUploads acc.2 := by
  intro l
  induction l with
  | nil =>
      intro acc out hrun
      simp only [List.foldlM_nil, Option.pure_def, Option.some.injEq] at hrun
      rw [← hrun]
  | cons k rest ih =>
      intro acc out hrun
      simp only [List.foldlM_cons, Option.bind_eq_bind] at hrun
      cases hs : execStep deps handles acc k with
      | none => rw [hs] at hrun; simp at hrun
      | some mid =>
          rw [hs] at hrun
          simp only [Option.some_bind] at hrun
          rw [ih mid out hrun]
          exact execStep_no_upload hcreated hs

theorem realizeImpl_parts {deps : DepsMap} {s : CPUState}
    {handles : List (Nat × BufferHandle)} {s₂ : CPUState} {ev : List BEvent}
    (h : realizeImpl deps s = some (handles, s₂, ev)) :
    ∃ order s₁ ev₁, topologicalSort deps = some order ∧
      allocPass deps order s = some (handles, s₁, ev₁) ∧
      order.foldlM (execStep deps handles) (s₁, ev₁) = some (s₂, ev) := by
  cases hord : topologicalSort deps with
  | none => simp [realizeImpl, hord] at h
  | some order =>
      cases halloc : allocPass deps order s with
      | none => simp [realizeImpl, hord, halloc] at h
      | some mid =>
          simp only [realizeImpl, hord, halloc, Option.bind_eq_bind,
            Option.some_bind] at h
          obtain ⟨hsm, s₁m, ev₁m⟩ := mid
          cases hexec : order.foldlM (execStep deps hsm) (s₁m, ev₁m) with
          | none => rw [hexec] at h; simp at h
          | some fin =>
              rw [hexec] at h
              obtain ⟨f₁, f₂⟩ := fin
              simp only [Option.some_bind, Option.some.injEq, Prod.mk.injEq] at h
              obtain ⟨hh, hs₂, hev⟩ := h
              subst hh
              exact ⟨order, s₁m, ev₁m, rfl, halloc, by rw [hexec, hs₂, hev]⟩

theorem realizeHandle_parts {reg : List LazyBuffer} {root : Nat} {s : CPUState}
    {reg₁ : List LazyBuffer} {s₂ : CPUState} {ev : List BEvent}
    (h : realizeHandle reg root s = some (reg₁, s₂, ev)) :
    ∃ deps handles, collectDependencies reg root = some deps ∧
      realizeImpl deps s = some (handles, s₂, ev) ∧
      commitHandles handles reg = some reg₁ := by
  cases hroot : reg[root]? with
  | none => simp [realizeHandle, hroot] at h
  | some r₀ =>
      cases hdeps : collectDependencies reg root with
      | none => simp [realizeHandle, hroot, hdeps] at h
      | some deps =>
          simp only [realizeHandle, hroot, hdeps, Option.bind_eq_bind,
            Option.some_bind] at h
          cases himpl : realizeImpl deps s with
          | none => rw [himpl] at h; simp at h
          | some trip =>
              rw [himpl] at h
              obtain ⟨hsm, sm, evm⟩ := trip
              simp only [Option.some_bind] at h
              cases hcommit : commitHandles hsm reg with
              | none => rw [hcommit] at h; simp at h
              | some regc =>
                  rw [hcommit] at h
                  simp only [Option.some_bind, Option.some.injEq,
                    Prod.mk.injEq] at h
                  obtain ⟨hr, hs, he⟩ := h
                  subst hr
                  subst hs
                  subst he
                  exact ⟨deps, hsm, rfl, himpl, hcommit⟩

/-- C2, amended: once a root has been realized, a second `realize` of the
same root issues **zero uploads** — every `RawData`/`Random` creation in the
realized set was rewritten to the `Created` marker and is skipped — but
binary-op and `Memset` nodes are *not* rewritten, so their backend
arithmetic calls are issued again (see the counterexample, where the second
realize re-issues the `add`).  The second call may start from any host
state. -/
theorem second_realize_issues_no_uploads
    (reg reg₁ reg₂ : List LazyBuffer) (root : Nat) (s sB : CPUState)
    (s₂ s₃ : CPUState) (ev₁ ev₂ : List BEvent)
    (h₁ : realizeHandle reg root s = some (reg₁, s₂, ev₁))
    (h₂ : realizeHandle reg₁ root sB = some (reg₂, s₃, ev₂)) :
    countUploads ev₂ = 0 := by
  obtain ⟨deps, handles, hdeps, himpl, hcommit⟩ := realizeHandle_parts h₁
  obtain ⟨order, s₁, evA, hord, halloc, hexec⟩ := realizeImpl_parts himpl
  obtain ⟨hndH, hordH, _, _⟩ :=
    allocPass_spec order [] s [] (handles, s₁, evA)
      (by simpa [allocPass] using halloc) (by simp)
  obtain ⟨hclen, hcout, hcin⟩ := commitHandles_spec handles reg reg₁ hcommit hndH
  have hskel : skelEq reg reg₁ := by
    refine ⟨hclen.symm, fun i b hib => ?_⟩
    by_cases hi : i ∈ handles.map (fun p => p.1)
    · obtain ⟨q, hq, hq₁⟩ := List.mem_map.mp hi
      obtain ⟨qk, qh⟩ := q
      simp only at hq₁
      subst hq₁
      obtain ⟨b₂, hb₂, hreg₁⟩ := hcin qk qh hq
      rw [hib] at hb₂
      cases hb₂
      exact ⟨_, hreg₁, rfl, (rewriteOp_skeleton _).symm⟩
    · refine ⟨b, ?_, rfl, rfl⟩
      rw [hcout i hi]
      exact hib
  obtain ⟨deps₂, handles₂, hdeps₂, himpl₂, _⟩ := realizeHandle_parts h₂
  obtain ⟨order₂, s₁₂, evA₂, hord₂, halloc₂, hexec₂⟩ := realizeImpl_parts himpl₂
  -- relate the two collected dependency maps
  have hrel : List.Forall₂ depEntryRel deps deps₂ := by
    cases hcr : collectRec reg (reg.length + 2) root [] [] with
    | none => simp [collectDependencies, hcr] at hdeps
    | some outc =>
        have hdeps₁ : outc.1 = deps := by
          simpa [collectDependencies, hcr] using hdeps
        obtain ⟨out₂, hcr₂, hrel₂, _⟩ :=
          collectRec_sim hskel (reg.length + 2) root [] [] [] outc List.Forall₂.nil hcr
        have hlen₂ : reg₁.length + 2 = reg.length + 2 := by rw [hclen]
        rw [← hlen₂] at hcr₂
        have hdeps₂₁ : out₂.1 = deps₂ := by
          simpa [collectDependencies, hcr₂] using hdeps₂
        rw [← hdeps₁, ← hdeps₂₁]
        exact hrel₂
  have hcreated : ∀ (k : Nat) (n : LazyBuffer), alistLookup k deps₂ = some n →
      ∀ c, n.operation = .creation c → c = .created := by
    intro k n hk c hop
    have hkmem : k ∈ deps₂.map (fun p => p.1) := alistLookup_some_mem hk
    rw [← forall₂_keys hrel] at hkmem
    have hkord : k ∈ order := (topoSort_spec hord).2.1 k hkmem
    have hsome : (alistLookup k handles).isSome := hordH k hkord
    obtain ⟨hh, hhk⟩ := Option.isSome_iff_exists.mp hsome
    have hhmem : (k, hh) ∈ handles := alistLookup_mem hhk
    obtain ⟨b, _, hreg₁⟩ := hcin k hh hhmem
    have hentry : (k, n) ∈ deps₂ := alistLookup_mem hk
    cases hcr₂ : collectRec reg₁ (reg₁.length + 2) root [] [] with
    | none => simp [collectDependencies, hcr₂] at hdeps₂
    | some outc₂ =>
        have hd : outc₂.1 = deps₂ := by
          simpa [collectDependencies, hcr₂] using hdeps₂
        rcases @collectRec_entries reg₁ (reg₁.length + 2) root [] []
            outc₂ hcr₂ (k, n) (by rw [hd]; exact hentry) with hnil | hlook
        · simp at hnil
        · simp only at hlook
          rw [hreg₁] at hlook
          simp only [Option.some.injEq] at hlook
          rw [← hlook] at hop
          simp only at hop
          exact rewriteOp_creation hop
  have hupl₂ : countUploads ev₂ = countUploads evA₂ :=
    execFold_no_uploads hcreated order₂ (s₁₂, evA₂) (s₃, ev₂) hexec₂
  obtain ⟨_, _, _, hA₂⟩ :=
    allocPass_spec order₂ [] sB [] (handles₂, s₁₂, evA₂)
      (by simpa [allocPass] using halloc₂) (by simp)
  rw [hupl₂, hA₂]
  rfl

/-- Registry for the C2 example: node 2 is `Add(0, 1)` over two raw-data
creations. -/
def c2Reg : List LazyBuffer :=
  ((runCalls [.newBuf 0 [F32.finite 1], .newBuf 1 [F32.finite 2],
    .fromOp 2 (.add 0 1)] RegState.init).getD RegState.init).registry

/-- First realize of root 2 on an empty host backend. -/
def c2First : List LazyBuffer × CPUState × List BEvent :=
  (realizeHandle c2Reg 2 ⟨[]⟩).getD ([], ⟨[]⟩, [])

/-- Second realize of root 2, on the committed registry and resulting host
state of the first realize. -/
def c2Second : List LazyBuffer × CPUState × List BEvent :=
  (realizeHandle c2First.1 2 c2First.2.1).getD ([], ⟨[]⟩, [])

/-- C2, counterexample.  Re-realizing `c = a + b` after a completed realize
issues the `add` again: the second call's trace holds one arithmetic backend
op, not zero — only `Creation` nodes are rewritten to `Created`, binary-op
nodes are re-executed.  (Uploads are indeed zero the second time.) -/
theorem repeated_realize_claim_counterexample :
    (realizeHandle c2Reg 2 ⟨[]⟩).isSome ∧
    (realizeHandle c2First.1 2 c2First.2.1).isSome ∧
    countArith c2Second.2.2 = 1 ∧
    countUploads c2Second.2.2 = 0 ∧
    countArith c2First.2.2 = 1 ∧ countUploads c2First.2.2 = 2 := by
  refine ⟨?_, ?_, ?_, ?_, ?_, ?_⟩ <;> rfl

/-- C2, witness for the amended theorem: the concrete second realize of
`c2Reg`'s root issues zero uploads. -/
theorem second_realize_issues_no_uploads_witness :
    countUploads c2Second.2.2 = 0 :=
  second_realize_issues_no_uploads c2Reg c2First.1 c2Second.1 2 ⟨[]⟩ c2First.2.1
    c2First.2.1 c2Second.2.1 c2First.2.2 c2Second.2.2 rfl rfl

/-- C1, counterexample.  With operand buffers `a = [1.0]`, `b = [0.0]`, the
host `divide` of `src/src/backends/cpu_backend.rs` writes `+∞` (IEEE
`1.0 / 0.0`), not NaN, at the index where the divisor is zero, and the
`divide` shader of `src/src/backends/vulkan_backend.rs` computes the same
plain quotient; neither has a zero-divisor guard, refuting the claim. -/
theorem divide_by_zero_claim_counterexample :
    (CPUBackend.divide ⟨[(0, [F32.finite 1]), (1, [F32.finite 0])]⟩
        ⟨0, 1⟩ ⟨1, 1⟩ ⟨2, 1⟩ 1).bind
      (fun s => CPUBackend.read_buffer s ⟨2, 1⟩) = some [F32.inf false] ∧
    VulkanBackend.shader_divide [F32.finite 1] [F32.finite 0] 1 = [F32.inf false] ∧
    F32.inf false ≠ F32.nan := by
  decide

/-- C1, amended: `divide(a, b, result, size)` writes the plain IEEE-754
quotient `a[i] / b[i]` at every index `i < size` — there is no zero-divisor
guard, so an index with `b[i] = 0.0` receives NaN exactly when `a[i]` is zero
(or NaN), and a signed infinity otherwise. -/
theorem divide_writes_ieee_quotient (s : CPUState) (a b r : BufferHandle)
    (size : Nat) (ad bd : Buf)
    (ha : alistLookup a.id s.buffers = some ad)
    (hb : alistLookup b.id s.buffers = some bd)
    (hla : size ≤ ad.length) (hlb : size ≤ bd.length) :
    (∃ s₂, CPUBackend.divide s a b r size = some s₂ ∧
      alistLookup r.id s₂.buffers =
        some ((List.range size).map fun i => F32.div (ad.getD i .nan) (bd.getD i .nan))) ∧
    VulkanBackend.shader_divide ad bd size =
      (List.range size).map (fun i => F32.div (ad.getD i .nan) (bd.getD i .nan)) ∧
    (∀ x : F32, F32.div x (F32.finite 0) = F32.nan ↔ (x = F32.finite 0 ∨ x = F32.nan)) := by
  refine ⟨⟨⟨alistInsert r.id ((List.range size).map fun i =>
      F32.div (ad.getD i .nan) (bd.getD i .nan)) s.buffers⟩, ?_, ?_⟩, rfl, ?_⟩
  · simp [CPUBackend.divide, CPUBackend.binOp, ha, hb, CPUBackend.opLoop, hla, hlb,
      CPUBackend.BinOpKind.f]
  · exact alistLookup_insert_self _ _ _
  · intro x
    cases x with
    | finite q =>
        by_cases hq : q = 0 <;>
          simp [F32.div, hq]
    | inf bsign => simp [F32.div]
    | nan => simp [F32.div]

/-- C1, witness for the amended theorem at `a = [1.0, 0.0]`, `b = [0.0, 0.0]`,
`size = 2`. -/
theorem divide_writes_ieee_quotient_witness :
    (∃ s₂, CPUBackend.divide ⟨[(0, [F32.finite 1, F32.finite 0]),
        (1, [F32.finite 0, F32.finite 0])]⟩ ⟨0, 2⟩ ⟨1, 2⟩ ⟨2, 2⟩ 2 = some s₂ ∧
      alistLookup 2 s₂.buffers =
        some ((List.range 2).map fun i =>
          F32.div ([F32.finite 1, F32.finite 0].getD i .nan)
            ([F32.finite 0, F32.finite 0].getD i .nan))) ∧
    VulkanBackend.shader_divide [F32.finite 1, F32.finite 0]
        [F32.finite 0, F32.finite 0] 2 =
      (List.range 2).map (fun i =>
        F32.div ([F32.finite 1, F32.finite 0].getD i .nan)
          ([F32.finite 0, F32.finite 0].getD i .nan)) ∧
    (∀ x : F32, F32.div x (F32.finite 0) = F32.nan ↔ (x = F32.finite 0 ∨ x = F32.nan)) :=
  divide_writes_ieee_quotient ⟨[(0, [F32.finite 1, F32.finite 0]),
      (1, [F32.finite 0, F32.finite 0])]⟩ ⟨0, 2⟩ ⟨1, 2⟩ ⟨2, 2⟩ 2
    [F32.finite 1, F32.finite 0] [F32.finite 0, F32.finite 0]
    (by decide) (by decide) (by decide) (by decide)

/-! ## C7: allocate_buffer idempotence -/

/-- C7, counterexample.  A second `allocate_buffer` whose size disagrees with
the first call does **not** fail on either backend (the source has no failure
path): the host backend returns the first call's handle unchanged, and the
GPU backend returns a handle whose size is the stored **byte** size
(`buffer.size as usize` = 4× the element count), not the first call's size. -/
theorem allocate_size_disagreement_counterexample :
    CPUBackend.allocate_buffer (CPUBackend.allocate_buffer ⟨[]⟩ 0 3).2 0 5 =
      (⟨0, 3⟩, (CPUBackend.allocate_buffer ⟨[]⟩ 0 3).2) ∧
    VulkanBackend.allocate_buffer (VulkanBackend.allocate_buffer ⟨[]⟩ 0 3).2 0 5 =
      (⟨0, 12⟩, (VulkanBackend.allocate_buffer ⟨[]⟩ 0 3).2) := by
  decide

/-- C7, amended: `allocate_buffer` is idempotent on the lazy-buffer id — the
first call for an absent id determines the stored buffer's size and every
subsequent call (with any requested size, agreeing or not) returns without
failing and without touching the table.  On the host backend the returned
handle repeats the first call's identity and size; on the GPU backend the
repeated handle carries the stored byte size (4× the element count) instead
of the first call's size.  A size disagreement is silently ignored, never an
error. -/
theorem allocate_buffer_idempotent (lazy size₁ size₂ : Nat)
    (s : CPUState) (v : VkState)
    (hc : alistLookup lazy s.buffers = none)
    (hv : alistLookup lazy v.buffers = none) :
    (CPUBackend.allocate_buffer s lazy size₁).1 = ⟨lazy, size₁⟩ ∧
    CPUBackend.allocate_buffer (CPUBackend.allocate_buffer s lazy size₁).2 lazy size₂ =
      (⟨lazy, size₁⟩, (CPUBackend.allocate_buffer s lazy size₁).2) ∧
    (VulkanBackend.allocate_buffer v lazy size₁).1 = ⟨lazy, size₁⟩ ∧
    VulkanBackend.allocate_buffer (VulkanBackend.allocate_buffer v lazy size₁).2 lazy size₂ =
      (⟨lazy, size₁ * 4⟩, (VulkanBackend.allocate_buffer v lazy size₁).2) := by
  refine ⟨?_, ?_, ?_, ?_⟩ <;>
    simp [CPUBackend.allocate_buffer, VulkanBackend.allocate_buffer, hc, hv,
      alistLookup_insert_self]

/-- C7, witness: both backends, id 0, first size 3, second (disagreeing)
size 7, starting from empty tables. -/
theorem allocate_buffer_idempotent_witness :
    (CPUBackend.allocate_buffer ⟨[]⟩ 0 3).1 = ⟨0, 3⟩ ∧
    CPUBackend.allocate_buffer (CPUBackend.allocate_buffer ⟨[]⟩ 0 3).2 0 7 =
      (⟨0, 3⟩, (CPUBackend.allocate_buffer ⟨[]⟩ 0 3).2) ∧
    (VulkanBackend.allocate_buffer ⟨[]⟩ 0 3).1 = ⟨0, 3⟩ ∧
    VulkanBackend.allocate_buffer (VulkanBackend.allocate_buffer ⟨[]⟩ 0 3).2 0 7 =
      (⟨0, 3 * 4⟩, (VulkanBackend.allocate_buffer ⟨[]⟩ 0 3).2) :=
  allocate_buffer_idempotent 0 3 7 ⟨[]⟩ ⟨[]⟩ (by decide) (by decide)

/-! ## C8: alias safety of the host ops -/

/-- C8: each of the four host arithmetic ops reads both operand vectors
before inserting the freshly computed result vector, so the values read back
from the result identity are the same whatever the result handle is — in
particular when it aliases an operand handle (`result = a` on the left, an
arbitrary, possibly distinct, handle on the right). -/
theorem host_ops_alias_safe (k : CPUBackend.BinOpKind) (s : CPUState)
    (a b r : BufferHandle) (size : Nat) :
    (CPUBackend.binOp k s a b a size).bind
        (fun s₂ => CPUBackend.read_buffer s₂ a) =
    (CPUBackend.binOp k s a b r size).bind
        (fun s₂ => CPUBackend.read_buffer s₂ r) := by
  cases ha : alistLookup a.id s.buffers with
  | none => simp [CPUBackend.binOp, ha]
  | some ad =>
      cases hb : alistLookup b.id s.buffers with
      | none => simp [CPUBackend.binOp, ha, hb]
      | some bd =>
          cases hl : CPUBackend.opLoop k.f ad bd size with
          | none => simp [CPUBackend.binOp, ha, hb, hl]
          | some rd =>
              simp [CPUBackend.binOp, ha, hb, hl, CPUBackend.read_buffer,
                alistLookup_insert_self]

/-! ## C3/C4: the autograd graph built by `Tensor::backward` -/

/-- Sign of a negated nonzero rational, as a `decide`-level Bool. -/
theorem negDecideLt {q : ℚ} (hq : q ≠ 0) : decide (-q < 0) = !decide (q < 0) := by
  rcases lt_trichotomy q 0 with h | h | h
  · rw [decide_eq_false (not_lt.mpr (neg_nonneg.mpr h.le)), decide_eq_true h]
    rfl
  · exact absurd h hq
  · rw [decide_eq_true (neg_lt_zero.mpr h), decide_eq_false (not_lt.mpr h.le)]
    rfl

/-- Multiplying by the constant `-1.0` is IEEE negation in the value model. -/
theorem F32.mulNegOne (x : F32) : F32.mul x (F32.finite (-1)) = F32.neg x := by
  cases x with
  | nan => rfl
  | inf a => norm_num [F32.mul, F32.neg]
  | finite q => norm_num [F32.mul, F32.neg, mul_neg_one]

/-- Negation commutes out of the right factor of an IEEE product. -/
theorem F32.mulNegRight (x y : F32) :
    F32.mul x (F32.neg y) = F32.neg (F32.mul x y) := by
  cases x with
  | nan => cases y <;> rfl
  | inf a =>
      cases y with
      | nan => rfl
      | inf b => cases a <;> cases b <;> rfl
      | finite q =>
          by_cases hq : q = 0
          · subst hq; simp [F32.neg, F32.mul]
          · have hnq : -q ≠ 0 := neg_ne_zero.mpr hq
            simp only [F32.neg, F32.mul, if_neg hq, if_neg hnq, negDecideLt hq]
            cases a <;> cases decide (q < 0) <;> rfl
  | finite p =>
      cases y with
      | nan => rfl
      | inf b =>
          by_cases hp : p = 0
          · subst hp; simp [F32.neg, F32.mul]
          · simp only [F32.neg, F32.mul, if_neg hp]
            cases b <;> cases decide (p < 0) <;> rfl
      | finite q => simp [F32.neg, F32.mul, mul_neg]

/-- Pointwise: a buffer times a same-length buffer of `-1.0`s is the negated
buffer. -/
theorem zipWith_mulNegOne (gv : Buf) :
    List.zipWith F32.mul gv (List.replicate gv.length (F32.finite (-1))) =
      List.map F32.neg gv := by
  induction gv with
  | nil => rfl
  | cons x xs ih => simp [List.replicate_succ, ih, F32.mulNegOne]

/-- Pointwise: negation commutes out of the right factor of a buffer
product. -/
theorem zipWith_mulNegRight (a : Buf) : ∀ gv : Buf,
    List.zipWith F32.mul a (List.map F32.neg gv) =
      List.map F32.neg (List.zipWith F32.mul a gv) := by
  induction a with
  | nil => intro gv; rfl
  | cons x xs ih =>
      intro gv
      cases gv with
      | nil => rfl
      | cons y ys => simp [ih ys, F32.mulNegRight]

/-- C4: for a node popped in `Tensor::backward` with incoming chain gradient
`g`, the per-operation gradient rules hold.  `Add(a, b)` pushes the unchanged
`g` to both operands; `Sub(a, b)` pushes `g` to the left and a gradient
evaluating to `-g` (built as `g` times a `-1.0` buffer) to the right;
`Mul(a, b)` pushes a gradient evaluating pointwise to `b*g` to the left and
`a*g` to the right; `Div(a, b)` pushes `g/b` to the left and
`(-(a*g))/(b*b)` to the right.  Every pushed tensor carries its pushed
gradient in its gradient slot. -/
theorem backward_gradient_rules (t l r : ATensor) (g : ALazy) (c : Nat)
    (a b gv : List F32)
    (ha : evalLazy l.buffer = some a) (hb : evalLazy r.buffer = some b)
    (hg : evalLazy g = some gv)
    (hla : a.length = gv.length) (hlb : b.length = gv.length)
    (hsz : g.size = gv.length) :
    (t.buffer.operation = .add l r →
      backwardStep t g c = ([(l.withGradient g, g), (r.withGradient g, g)], c)) ∧
    (t.buffer.operation = .subtract l r →
      ∃ rg c₂, backwardStep t g c =
          ([(l.withGradient g, g), (r.withGradient rg, rg)], c₂) ∧
        evalLazy rg = some (List.map F32.neg gv)) ∧
    (t.buffer.operation = .multiply l r →
      ∃ lg rg c₂, backwardStep t g c =
          ([(l.withGradient lg, lg), (r.withGradient rg, rg)], c₂) ∧
        evalLazy lg = some (List.zipWith F32.mul b gv) ∧
        evalLazy rg = some (List.zipWith F32.mul a gv)) ∧
    (t.buffer.operation = .divide l r →
      ∃ lg rg c₂, backwardStep t g c =
          ([(l.withGradient lg, lg), (r.withGradient rg, rg)], c₂) ∧
        evalLazy lg = some (List.zipWith F32.div gv b) ∧
        evalLazy rg = some (List.zipWith F32.div
          (List.map F32.neg (List.zipWith F32.mul a gv))
          (List.zipWith F32.mul b b))) := by
  obtain ⟨tb, tg, tr⟩ := t
  obtain ⟨ti, tn, td, top⟩ := tb
  obtain ⟨lb, lg₀, lr⟩ := l
  obtain ⟨rb, rg₀, rr⟩ := r
  simp only [ATensor.buffer] at ha hb
  refine ⟨?_, ?_, ?_, ?_⟩ <;>
    (intro hop; simp only [ATensor.buffer, ALazy.operation] at hop; subst hop)
  · rfl
  · refine ⟨_, _, rfl, ?_⟩
    simp [backwardStep, ALazy.new, ALazy.from_operation, wrapNoGrad,
      ATensor.buffer, evalLazy, hg, hsz, zipWith_mulNegOne]
  · refine ⟨_, _, _, rfl, ?_, ?_⟩ <;>
      simp [backwardStep, ALazy.from_operation, wrapNoGrad, ATensor.buffer,
        evalLazy, hg, ha, hb, hla, hlb]
  · refine ⟨_, _, _, rfl, ?_, ?_⟩
    · simp [backwardStep, ALazy.from_operation, wrapNoGrad, ATensor.buffer,
        evalLazy, hg, hb, hlb]
    · simp [backwardStep, ALazy.new, ALazy.from_operation, wrapNoGrad,
        ATensor.buffer, evalLazy, hg, ha, hb, hsz, hla, hlb,
        zipWith_mulNegOne, zipWith_mulNegRight]

/-- Left operand for the C4 witness: inlined data `[2.0]`. -/
def c4L : ATensor := wrapNoGrad (.mk 0 1 (some [F32.finite 2]) .creation)

/-- Right operand for the C4 witness: inlined data `[3.0]`. -/
def c4R : ATensor := wrapNoGrad (.mk 1 1 (some [F32.finite 3]) .creation)

/-- Chain gradient for the C4 witness: inlined data `[1.0]`. -/
def c4G : ALazy := .mk 2 1 (some [F32.finite 1]) .creation

/-- Popped node for the C4 witness: `Divide(c4L, c4R)`. -/
def c4T : ATensor := .mk (.mk 3 1 none (.divide c4L c4R)) none true

/-- C4, witness: the division rule at the concrete node `c4T` with chain
gradient `[1.0]`, operands `[2.0]` and `[3.0]`. -/
theorem backward_gradient_rules_witness :
    ∃ lg rg c₂, backwardStep c4T c4G 7 =
        ([(c4L.withGradient lg, lg), (c4R.withGradient rg, rg)], c₂) ∧
      evalLazy lg = some (List.zipWith F32.div [F32.finite 1] [F32.finite 3]) ∧
      evalLazy rg = some (List.zipWith F32.div
        (List.map F32.neg (List.zipWith F32.mul [F32.finite 2] [F32.finite 1]))
        (List.zipWith F32.mul [F32.finite 3] [F32.finite 3])) :=
  (backward_gradient_rules c4T c4L c4R c4G 7 [F32.finite 2] [F32.finite 3]
    [F32.finite 1] rfl rfl rfl rfl rfl rfl).2.2.2 rfl

/-- The gradient slot written by `withGradient₀` is exactly the supplied
optional buffer. -/
theorem withGradient_zero_gradient (t : ATensor) (og : Option ALazy) :
    (t.withGradient₀ og).gradient = og := by
  cases t
  rfl

/-- Every gradient pushed by `backwardStep` carries an identity at least
`lo` whenever the incoming gradient's identity and the counter are at least
`lo`, and the counter never decreases. -/
theorem backwardStep_fresh (lo : Nat) (t : ATensor) (g : ALazy) (c : Nat)
    (hg : lo ≤ g.id) (hc : lo ≤ c) :
    lo ≤ (backwardStep t g c).2 ∧
    ∀ p ∈ (backwardStep t g c).1, lo ≤ p.2.id := by
  obtain ⟨tb, tg, tr⟩ := t
  obtain ⟨ti, tn, td, top⟩ := tb
  cases top with
  | creation =>
      refine ⟨hc, ?_⟩
      intro p hp
      simp [backwardStep, ATensor.buffer, ALazy.operation] at hp
  | add l r =>
      refine ⟨hc, ?_⟩
      intro p hp
      simp [backwardStep, ATensor.buffer, ALazy.operation] at hp
      rcases hp with h | h <;> (rw [h]; exact hg)
  | subtract l r =>
      refine ⟨?_, ?_⟩
      · simp [backwardStep, ATensor.buffer, ALazy.operation, ALazy.new, ALazy.from_operation]
        omega
      · intro p hp
        simp [backwardStep, ATensor.buffer, ALazy.operation, ALazy.new, ALazy.from_operation] at hp
        rcases hp with h | h
        · rw [h]; exact hg
        · rw [h]; simp [ALazy.id]; omega
  | multiply l r =>
      refine ⟨?_, ?_⟩
      · simp [backwardStep, ATensor.buffer, ALazy.operation, ALazy.from_operation]
        omega
      · intro p hp
        simp [backwardStep, ATensor.buffer, ALazy.operation, ALazy.from_operation] at hp
        rcases hp with h | h <;> (rw [h]; simp [ALazy.id]; omega)
  | divide l r =>
      refine ⟨?_, ?_⟩
      · simp [backwardStep, ATensor.buffer, ALazy.operation, ALazy.new, ALazy.from_operation]
        omega
      · intro p hp
        simp [backwardStep, ATensor.buffer, ALazy.operation, ALazy.new, ALazy.from_operation] at hp
        rcases hp with h | h <;> (rw [h]; simp [ALazy.id]; omega)

/-- Freshness invariant of the `backward` while-loop: if every queued
gradient, the root gradient slot and the counter carry identities at least
`lo`, the final gradient slot and counter do as well, and a populated root
slot stays populated. -/
theorem backwardLoop_fresh (lo : Nat) :
    ∀ (fuel : Nat) (q : List (ATensor × ALazy)) (rootGrad : Option ALazy)
      (c : Nat) (out : Option ALazy × Nat),
      backwardLoop fuel q rootGrad c = some out →
      (∀ p ∈ q, lo ≤ p.2.id) →
      (∀ eg ∈ rootGrad, lo ≤ eg.id) →
      lo ≤ c →
      (∀ rg ∈ out.1, lo ≤ rg.id) ∧ lo ≤ out.2 ∧
        (rootGrad.isSome → out.1.isSome) := by
  intro fuel
  induction fuel with
  | zero =>
      intro q rootGrad c out h hq hr hc
      cases q with
      | nil =>
          simp only [backwardLoop, Option.some.injEq] at h
          rw [← h]
          exact ⟨hr, hc, fun hs => hs⟩
      | cons p rest => simp [backwardLoop] at h
  | succ fuel ih =>
      intro q rootGrad c out h hq hr hc
      cases q with
      | nil =>
          simp only [backwardLoop, Option.some.injEq] at h
          rw [← h]
          exact ⟨hr, hc, fun hs => hs⟩
      | cons p rest =>
          obtain ⟨t, g⟩ := p
          have hgq : lo ≤ g.id := hq (t, g) (List.mem_cons_self _ _)
          have hrest : ∀ p₂ ∈ rest, lo ≤ p₂.2.id :=
            fun p₂ hp₂ => hq p₂ (List.mem_cons_of_mem _ hp₂)
          simp only [backwardLoop] at h
          by_cases htr : t.requiresGrad
          · rw [if_pos htr] at h
            cases hop : t.buffer.operation with
            | creation =>
                simp only [hop] at h
                cases rootGrad with
                | none =>
                    obtain ⟨h₁, h₂, h₃⟩ := ih rest (some g) c out h hrest
                      (by intro eg heg; simp at heg; rw [← heg]; exact hgq) hc
                    exact ⟨h₁, h₂, fun _ => h₃ (by simp)⟩
                | some eg =>
                    simp only [ALazy.from_operation] at h
                    obtain ⟨h₁, h₂, h₃⟩ := ih rest
                      (some (.mk c ((ATOp.add (wrapNoGrad eg) (wrapNoGrad g)).derivedSize)
                        none (.add (wrapNoGrad eg) (wrapNoGrad g)))) (c + 1) out h hrest
                      (by intro eg₂ heg₂; simp at heg₂; rw [← heg₂]; exact hc)
                      (Nat.le_succ_of_le hc)
                    exact ⟨h₁, h₂, fun _ => h₃ (by simp)⟩
            | add l r =>
                simp only [hop] at h
                obtain ⟨hstep₁, hstep₂⟩ := backwardStep_fresh lo t g c hgq hc
                obtain ⟨h₁, h₂, h₃⟩ := ih (rest ++ (backwardStep t g c).1) rootGrad
                  (backwardStep t g c).2 out h
                  (by
                    intro p₂ hp₂
                    rcases List.mem_append.mp hp₂ with hm | hm
                    · exact hrest p₂ hm
                    · exact hstep₂ p₂ hm) hr hstep₁
                exact ⟨h₁, h₂, h₃⟩
            | subtract l r =>
                simp only [hop] at h
                obtain ⟨hstep₁, hstep₂⟩ := backwardStep_fresh lo t g c hgq hc
                obtain ⟨h₁, h₂, h₃⟩ := ih (rest ++ (backwardStep t g c).1) rootGrad
                  (backwardStep t g c).2 out h
                  (by
                    intro p₂ hp₂
                    rcases List.mem_append.mp hp₂ with hm | hm
                    · exact hrest p₂ hm
                    · exact hstep₂ p₂ hm) hr hstep₁
                exact ⟨h₁, h₂, h₃⟩
            | multiply l r =>
                simp only [hop] at h
                obtain ⟨hstep₁, hstep₂⟩ := backwardStep_fresh lo t g c hgq hc
                obtain ⟨h₁, h₂, h₃⟩ := ih (rest ++ (backwardStep t g c).1) rootGrad
                  (backwardStep t g c).2 out h
                  (by
                    intro p₂ hp₂
                    rcases List.mem_append.mp hp₂ with hm | hm
                    · exact hrest p₂ hm
                    · exact hstep₂ p₂ hm) hr hstep₁
                exact ⟨h₁, h₂, h₃⟩
            | divide l r =>
                simp only [hop] at h
                obtain ⟨hstep₁, hstep₂⟩ := backwardStep_fresh lo t g c hgq hc
                obtain ⟨h₁, h₂, h₃⟩ := ih (rest ++ (backwardStep t g c).1) rootGrad
                  (backwardStep t g c).2 out h
                  (by
                    intro p₂ hp₂
                    rcases List.mem_append.mp hp₂ with hm | hm
                    · exact hrest p₂ hm
                    · exact hstep₂ p₂ hm) hr hstep₁
                exact ⟨h₁, h₂, h₃⟩
          · rw [if_neg htr] at h
            exact ih rest rootGrad c out h hrest hr hc

/-- C3, amended: `Tensor::backward` does **not** write into a pre-allocated
gradient accumulator — each call begins with
`self.gradient = Some(LazyBuffer::new(ones))` and the `Creation` base case
replaces the slot with freshly registered `Add` nodes, so the tensor returned
by a completed `backward` carries a gradient whose identity is at least the
entry counter `c`: a **fresh** buffer, never the identity held before the
call (all previously registered identities are below the counter).  No
`Memset` is involved. -/
theorem backward_assigns_fresh_gradient (t : ATensor) (c fuel : Nat)
    (t₂ : ATensor) (c₂ : Nat) (h : backward t c fuel = some (t₂, c₂)) :
    ∃ g, t₂.gradient = some g ∧ c ≤ g.id ∧ c ≤ c₂ := by
  simp only [backward, ALazy.new] at h
  obtain ⟨p, hp, hpe⟩ := Option.map_eq_some'.mp h
  obtain ⟨h₁, h₂, h₃⟩ := backwardLoop_fresh c fuel _ _ _ p hp
    (by
      intro q hq
      simp at hq
      rw [hq]
      simp [ALazy.id])
    (by
      intro eg heg
      simp at heg
      rw [← heg]
      simp [ALazy.id])
    (Nat.le_add_right c 2)
  obtain ⟨g, hg⟩ := Option.isSome_iff_exists.mp (h₃ (by simp))
  rw [Prod.mk.injEq] at hpe
  obtain ⟨het, hec⟩ := hpe
  subst hec
  subst het
  refine ⟨g, ?_, h₁ g (by simp [hg]), h₂⟩
  rw [withGradient_zero_gradient]
  exact hg

/-- Tensor for the C3 counterexample: a creation tensor with
`requires_grad = true` whose gradient slot already holds the buffer with
identity 0 (the would-be pre-allocated accumulator). -/
def c3T : ATensor :=
  .mk (.mk 0 1 (some [F32.finite 2]) .creation)
    (some (.mk 0 1 (some [F32.finite 0]) .creation)) true

/-- First `backward` call on `c3T`, entering with counter 1. -/
def c3Run1 : ATensor × Nat := (backward c3T 1 4).getD (c3T, 0)

/-- Second `backward` call, on the tensor and counter the first returned. -/
def c3Run2 : ATensor × Nat := (backward c3Run1.1 c3Run1.2 4).getD (c3T, 0)

/-- C3, counterexample.  Two successive `backward` calls on the same
requires-grad creation tensor leave **three distinct** gradient identities
(0 before, 3 after the first call, 6 after the second): each call attaches a
freshly registered gradient buffer instead of writing into the identity held
before the call, refuting the claimed stable accumulator identity. -/
theorem training_gradient_identity_counterexample :
    (backward c3T 1 4).isSome ∧
    (backward c3Run1.1 c3Run1.2 4).isSome ∧
    Option.map ALazy.id c3T.gradient = some 0 ∧
    Option.map ALazy.id c3Run1.1.gradient = some 3 ∧
    Option.map ALazy.id c3Run2.1.gradient = some 6 ∧
    c3T.requiresGrad = true := by
  refine ⟨?_, ?_, ?_, ?_, ?_, ?_⟩ <;> rfl

/-- C3, witness for the amended theorem: the first concrete `backward` call
on `c3T` (entry counter 1) returns a gradient with identity at least 1 —
fresh relative to everything registered before the call. -/
theorem backward_assigns_fresh_gradient_witness :
    ∃ g, c3Run1.1.gradient = some g ∧ 1 ≤ g.id ∧ 1 ≤ c3Run1.2 :=
  backward_assigns_fresh_gradient c3T 1 4 c3Run1.1 c3Run1.2 rfl
